import Mathlib

/-!
Verification of the review-and-propagation engine in `scripts/review_app.py`.

Text is modelled as `List Char` (Python `str`).  The external
text-generation collaborator is modelled as an oracle argument: for the
detector, a function from the batch number to the parsed JSON outcome
(`none` = the response did not parse to a list), and for the rewriter a
function from the call number to the parsed outcome (`none` = the response
did not parse to a dict, `some field` = the value of the `replacement`
key coerced with `or ""`).  When no credentials are configured
(`ready = false`), `call_openai` returns `None` and the tolerant JSON
extraction yields `None`, which the definitions below encode by forcing
the parse outcome to `none`.  File persistence (`save_kb` etc.) rewrites a
whole collection from the in-memory copy, so states are plain values; the
best-effort patching of per-call insight files and the export regeneration
subprocess are external side effects with no bearing on the claims and are
not part of the state.
-/

/-- Python `str`, byte-for-byte (as a sequence of characters). -/
abbrev Str := List Char

/-- Python `s.strip()` (leading and trailing whitespace removed). -/
def stripS (s : Str) : Str :=
  ((s.dropWhile Char.isWhitespace).reverse.dropWhile Char.isWhitespace).reverse

/-- Python `s.lower()`. -/
def low (s : Str) : Str := s.map Char.toLower

/-- Bool test that `p` is a leading segment of `s`. -/
def pfx : Str → Str → Bool
  | [], _ => true
  | _ :: _, [] => false
  | a :: as, b :: bs => if a = b then pfx as bs else false

/-- Python `pat in s` (substring test). -/
def containsSub (pat : Str) : Str → Bool
  | [] => pfx pat []
  | c :: rest => pfx pat (c :: rest) || containsSub pat rest

/-- Python `s.replace(pat, rep, 1)`: the first occurrence of `pat` in `s`
is replaced by `rep`; `s` unchanged when `pat` does not occur. -/
def replaceFirst (pat rep : Str) : Str → Str
  | [] => if pat = [] then rep else []
  | c :: rest =>
    if pfx pat (c :: rest) then rep ++ (c :: rest).drop pat.length
    else c :: replaceFirst pat rep rest

/-- Index of the first occurrence of `pat` in `s`, if any. -/
def firstOcc (pat : Str) : Str → Option Nat
  | [] => if pfx pat [] then some 0 else none
  | c :: rest =>
    if pfx pat (c :: rest) then some 0
    else (firstOcc pat rest).map (· + 1)

def MAX_REWRITES : Nat := 20

def DETECTION_BATCH_SIZE : Nat := 8

/-- Model of `chunk_list(items, size)`, with fuel = `items.length` (the source slices
`items[i : i + size]` for `i = 0, size, 2·size, …`; `size` is 8 there). -/
def chunkAux (size : Nat) : Nat → List α → List (List α)
  | _, [] => []
  | 0, _ => []
  | fuel + 1, l => l.take size :: chunkAux size fuel (l.drop size)

def chunk_list (l : List α) (size : Nat) : List (List α) :=
  chunkAux size l.length l

/-- One line of `nlu_output/nlu_pairs.jsonl` (the fields the engine reads
or writes; missing `call_id` reads as the empty string, missing
`pair_index` as 0, matching Python falsiness of `None`/`""`/`0`). -/
structure QaRow where
  call_id : Str
  pair_index : Nat
  question : Str
  answer : Str
  needs_review : Bool
  review_notes : Str
deriving DecidableEq

def dfltRow : QaRow := ⟨[], 0, [], [], false, []⟩

/-- One entry of `knowledge_base/kb_faq_ru.json`. -/
structure KbEntry where
  canonical_question : Str
  best_answer : Str
  intent : Str
  pending_review : Bool
  last_reviewed_at : Str
  last_reviewer : Str
  review_comment : Str
deriving DecidableEq

def dfltEntry : KbEntry := ⟨[], [], [], true, [], [], []⟩

/-- One cluster of `global_faq_clusters_dedup.json` (keyed by
`canonical_q` in the cluster map). -/
structure Cluster where
  best_answer : Str
  source_conversation_ids : List Str
  near_duplicates : List Str
deriving DecidableEq

/-- An entry of a `corrected` record's `previous_rows` snapshot. -/
structure RowSnapshot where
  call_id : Str
  pair_index : Nat
  previous_answer : Str
deriving DecidableEq

/-- An entry of a `corrected` record's `row_diffs` trace. -/
structure RowDiff where
  call_id : Str
  pair_index : Nat
  question : Str
  old_answer : Str
  new_answer : Str
  changed : Bool
  llm_used : Bool
  reason : Str
deriving DecidableEq

def dfltDiff : RowDiff := ⟨[], 0, [], [], [], false, false, []⟩

/-- A line of `corrections/corrections.jsonl`.  The three record shapes
(`confirmed`, `corrected`, `undo`) are merged into one structure with
defaults for the fields a shape omits; records of different `rtype` are
never equal, so content equality agrees with Python dict equality. -/
structure LogRec where
  canonical_question : Str := []
  reviewed_at : Str := []
  reviewer : Str := []
  comment : Str := []
  corrected_answer : Str := []
  updated_rows : List (Str × Nat) := []
  rtype : Str := []
  nlu_regenerated : Bool := false
  previous_kb_answer : Option Str := none
  previous_rows : List RowSnapshot := []
  llm_used : Bool := false
  row_diffs : List RowDiff := []
  undone_at : Str := []
  undone_record : Str := []
deriving DecidableEq

/-- The decision the detector returns for one row. -/
structure DetectInfo where
  needs_edit : Bool
  reason : Str
  snippet : Str
deriving DecidableEq

def dfltInfo : DetectInfo := ⟨false, [], []⟩

/-- One element of the JSON array a detection response parses to
(`id = none` models a missing/null `id`). -/
structure DetectItem where
  id : Option Nat
  needs_edit : Bool
  reason : Str
  snippet : Str

/-- One element of `batch_rows` handed to the detector. -/
structure BatchRow where
  idx : Nat
  question : Str
  answer : Str

/-- The loaded collections: KB entries, the cluster map (an association
list keyed by canonical question, unique keys as in a Python dict), the
flat QA rows, and the correction log. -/
structure St where
  kb : List KbEntry
  clusters : List (Str × Cluster)
  rows : List QaRow
  log : List LogRec
deriving DecidableEq

def strNoChange : Str := "no_change_needed".toList
def strParseErr : Str := "parse_error".toList
def strParseErrRewrite : Str := "parse_error_rewrite".toList
def strNoSnippet : Str := "no_snippet".toList
def strEmptyRewrite : Str := "empty_rewrite".toList
def strSnippetNotFound : Str := "snippet_not_found".toList
def strFixed : Str := "fixed".toList
def strLimit : Str := "limit_reached".toList
def strCorrected : Str := "corrected".toList
def strConfirmed : Str := "confirmed".toList
def strUndo : Str := "undo".toList

/-- Lookup `cluster_map.get(q)`. -/
def lookupC : List (Str × Cluster) → Str → Option Cluster
  | [], _ => none
  | (k, c) :: rest, q => if k = q then some c else lookupC rest q

/-- Update `cluster_map[q]["best_answer"] = a` guarded by `q in cluster_map`
(identity when the key is absent). -/
def updClusterAnswer : List (Str × Cluster) → Str → Str → List (Str × Cluster)
  | [], _, _ => []
  | (k, c) :: rest, q, a =>
    if k = q then (k, { c with best_answer := a }) :: rest
    else (k, c) :: updClusterAnswer rest q a

/-- Lookup `results.get(idx)` on the detection results dict. -/
def lookupD : List (Nat × DetectInfo) → Nat → Option DetectInfo
  | [], _ => none
  | (k, v) :: rest, i => if k = i then some v else lookupD rest i

/-- Update `results[idx] = v` for a key already present (identity when absent;
every key the detector writes is present in the initial dict). -/
def updD : List (Nat × DetectInfo) → Nat → DetectInfo → List (Nat × DetectInfo)
  | [], _, _ => []
  | (k, v') :: rest, i, v =>
    if k = i then (k, v) :: rest else (k, v') :: updD rest i v

/-- The parsed-list branch of the detector: each item with a present `id`
that is a key of `results` overwrites that key's decision. -/
def applyItems (m : List (Nat × DetectInfo)) (items : List DetectItem) :
    List (Nat × DetectInfo) :=
  items.foldl
    (fun acc it =>
      match it.id with
      | none => acc
      | some i =>
        if (lookupD acc i).isSome then updD acc i ⟨it.needs_edit, it.reason, it.snippet⟩
        else acc)
    m

/-- The fallback branch of the detector: every row of the chunk is set to
`needs_edit=False, reason="parse_error"`. -/
def applyParseErr (m : List (Nat × DetectInfo)) (chunk : List BatchRow) :
    List (Nat × DetectInfo) :=
  chunk.foldl (fun acc r => updD acc r.idx ⟨false, strParseErr, []⟩) m

/-- The per-chunk loop shared by both `detect_inconsistencies`
definitions.  `j` numbers the chunk; without credentials `call_openai`
yields `None` and the JSON extraction yields `None`, so the parse outcome
is forced to `none`. -/
def detectGo (ready : Bool) (oracle : Nat → Option (List DetectItem)) :
    List (List BatchRow) → Nat → List (Nat × DetectInfo) → List (Nat × DetectInfo)
  | [], _, m => m
  | chunk :: rest, j, m =>
    let parsed := if ready then oracle j else none
    let m' :=
      match parsed with
      | some items => applyItems m items
      | none => applyParseErr m chunk
    detectGo ready oracle rest (j + 1) m'

/-- The second (effective) definition of `detect_inconsistencies`
(review_app.py:289): only the empty-rows case short-circuits; the
collaborator is consulted even when no credentials are configured. -/
def detect_inconsistencies (rows : List BatchRow)
    (canonical_answer comment : Str) (ready : Bool)
    (oracle : Nat → Option (List DetectItem)) : List (Nat × DetectInfo) :=
  let results := rows.map fun r => (r.idx, (⟨false, strNoChange, []⟩ : DetectInfo))
  if rows.isEmpty then results
  else detectGo ready oracle (chunk_list rows DETECTION_BATCH_SIZE) 0 results

/-- The first definition of `detect_inconsistencies` (review_app.py:201),
shadowed by the later one: it also short-circuits to the all-false
defaults when no credentials are configured (`not OPENAI_READY`). -/
def detect_inconsistencies_v1 (rows : List BatchRow)
    (canonical_answer comment : Str) (ready : Bool)
    (oracle : Nat → Option (List DetectItem)) : List (Nat × DetectInfo) :=
  let results := rows.map fun r => (r.idx, (⟨false, strNoChange, []⟩ : DetectInfo))
  if rows.isEmpty || !ready then results
  else detectGo ready oracle (chunk_list rows DETECTION_BATCH_SIZE) 0 results

/-- Model of `rewrite_snippet` (review_app.py:254).  `resp` is the parsed outcome
of the collaborator call: `none` = the response is not a dict,
`some field` = `parsed.get("replacement") or ""`. -/
def rewrite_snippet (original_answer snippet canonical_answer comment : Str)
    (ready : Bool) (resp : Option Str) : Str × Bool × Str :=
  if snippet = [] || !ready then (original_answer, false, strNoSnippet)
  else
    match resp with
    | none => (original_answer, false, strParseErrRewrite)
    | some field =>
      let replacement := stripS field
      if replacement = [] then (original_answer, false, strEmptyRewrite)
      else if containsSub snippet original_answer then
        (replaceFirst snippet replacement original_answer, true, strFixed)
      else (original_answer, false, strSnippetNotFound)

/-- Model of `append_correction_log`: content equality against the most recent
record suppresses the append. -/
def append_correction_log (log : List LogRec) (r : LogRec) : List LogRec :=
  if log.getLast? = some r then log else log ++ [r]

/-- Model of `load_corrections_for`. -/
def load_corrections_for (log : List LogRec) (q : Str) : List LogRec :=
  log.filter fun r => decide (r.canonical_question = q)

/-- Model of `find_last_correction`: the most recent `corrected` record for `q`. -/
def find_last_correction (log : List LogRec) (q : Str) : Option LogRec :=
  (load_corrections_for log q).reverse.find? fun r => decide (r.rtype = strCorrected)

/-- The per-row test of `find_candidate_rows`, then the indexed walk. -/
def rowIncluded (callIds : List Str) (phrases : List Str) (r : QaRow) : Bool :=
  callIds.contains r.call_id ||
    phrases.any fun p => !p.isEmpty && containsSub p (low r.question)

def candAux (callIds : List Str) (phrases : List Str) :
    Nat → List QaRow → List Nat
  | _, [] => []
  | i, r :: rest =>
    (if rowIncluded callIds phrases r then [i] else []) ++
      candAux callIds phrases (i + 1) rest

/-- Model of `find_candidate_rows` (review_app.py:427). -/
def find_candidate_rows (canonical_question : Str)
    (cluster_map : List (Str × Cluster)) (nlu_rows : List QaRow) : List Nat :=
  match lookupC cluster_map canonical_question with
  | none => []
  | some cluster =>
    let near_phrases :=
      low canonical_question ::
        (cluster.near_duplicates.filter (fun p => !p.isEmpty)).map low
    candAux cluster.source_conversation_ids near_phrases 0 nlu_rows

/-- The result of one run of the per-row loop of `update_records`. -/
structure LoopOut where
  rows : List QaRow
  rd : Nat
  prevs : List RowSnapshot
  upds : List (Str × Nat)
  diffs : List RowDiff
  llm : Bool
deriving DecidableEq

/-- The detect-and-rewrite part of one iteration of the `update_records`
loop (review_app.py:537-559), run when the budget is not yet exhausted:
returns `(revised_answer, needs_edit, llm_reason, rewrites_done, k)`,
where `k` numbers the rewrite calls for the oracle `rw`. -/
def correctStep (dmap : List (Nat × DetectInfo)) (new_answer comment : Str)
    (ready : Bool) (rw : Nat → Option Str) (row : QaRow) (idx rd k : Nat) :
    Str × Bool × Str × Nat × Nat :=
  let original := row.answer
  let info := (lookupD dmap idx).getD dfltInfo
  if info.needs_edit then
    if !info.snippet.isEmpty then
      if rd < MAX_REWRITES then
        let r := rewrite_snippet original info.snippet new_answer comment
          ready (rw k)
        (r.1, r.2.1, r.2.2, rd + (if r.2.1 then 1 else 0), k + 1)
      else (original, false, strLimit, rd, k)
    else (original, false, strNoSnippet, rd, k)
  else (original, info.needs_edit, info.reason, rd, k)

/-- The flag `changed = needs_edit and revised_answer != original_answer`
(review_app.py:564) for the row at `idx`, with `rd` not yet at the cap. -/
def stepChanged (dmap : List (Nat × DetectInfo)) (new_answer comment : Str)
    (ready : Bool) (rw : Nat → Option Str) (rows : List QaRow) (idx rd k : Nat) :
    Bool :=
  let row := rows.getD idx dfltRow
  let s := correctStep dmap new_answer comment ready rw row idx rd k
  s.2.1 && decide (s.1 ≠ row.answer)

/-- The row collection after one non-skipped iteration: the row at `idx`
is rewritten when `changed` holds (review_app.py:566-569). -/
def stepRows (dmap : List (Nat × DetectInfo)) (new_answer comment note : Str)
    (ready : Bool) (rw : Nat → Option Str) (rows : List QaRow) (idx rd k : Nat) :
    List QaRow :=
  let row := rows.getD idx dfltRow
  let s := correctStep dmap new_answer comment ready rw row idx rd k
  if stepChanged dmap new_answer comment ready rw rows idx rd k then
    rows.set idx
      { row with answer := s.1, needs_review := false, review_notes := note }
  else rows

/-- The `logs_for_user` entry of one non-skipped iteration
(review_app.py:580-591). -/
def stepDiff (dmap : List (Nat × DetectInfo)) (new_answer comment : Str)
    (ready : Bool) (rw : Nat → Option Str) (rows : List QaRow) (idx rd k : Nat) :
    RowDiff :=
  let row := rows.getD idx dfltRow
  let s := correctStep dmap new_answer comment ready rw row idx rd k
  ⟨row.call_id, row.pair_index, row.question, row.answer, s.1,
    stepChanged dmap new_answer comment ready rw rows idx rd k,
    stepChanged dmap new_answer comment ready rw rows idx rd k, s.2.2.1⟩

/-- The `updated_rows` contribution of one non-skipped iteration
(review_app.py:572-577). -/
def stepUpds (dmap : List (Nat × DetectInfo)) (new_answer comment : Str)
    (ready : Bool) (rw : Nat → Option Str) (rows : List QaRow) (idx rd k : Nat) :
    List (Str × Nat) :=
  if stepChanged dmap new_answer comment ready rw rows idx rd k then
    [((rows.getD idx dfltRow).call_id, (rows.getD idx dfltRow).pair_index)]
  else []

/-- The `logs_for_user` entry of a budget-skipped iteration
(review_app.py:514-527). -/
def limitDiff (rows : List QaRow) (idx : Nat) : RowDiff :=
  let row := rows.getD idx dfltRow
  ⟨row.call_id, row.pair_index, row.question, row.answer, row.answer,
    false, false, strLimit⟩

/-- The per-row loop of `update_records` (review_app.py:512-591).
`rows` is the live row collection, `rd` the count of successful rewrites
(`rewrites_done`).  The snapshot, updated-row and diff lists are built in
loop order. -/
def correctLoop (dmap : List (Nat × DetectInfo)) (new_answer comment note : Str)
    (ready : Bool) (rw : Nat → Option Str) :
    List Nat → List QaRow → Nat → Nat → LoopOut
  | [], rows, rd, _ => ⟨rows, rd, [], [], [], false⟩
  | idx :: rest, rows, rd, k =>
    if MAX_REWRITES ≤ rd then
      let out := correctLoop dmap new_answer comment note ready rw rest rows rd k
      ⟨out.rows, out.rd, out.prevs, out.upds, limitDiff rows idx :: out.diffs, out.llm⟩
    else
      let s := correctStep dmap new_answer comment ready rw (rows.getD idx dfltRow)
        idx rd k
      let out := correctLoop dmap new_answer comment note ready rw rest
        (stepRows dmap new_answer comment note ready rw rows idx rd k)
        s.2.2.2.1 s.2.2.2.2
      ⟨out.rows, out.rd,
        ⟨(rows.getD idx dfltRow).call_id, (rows.getD idx dfltRow).pair_index,
          (rows.getD idx dfltRow).answer⟩ :: out.prevs,
        stepUpds dmap new_answer comment ready rw rows idx rd k ++ out.upds,
        stepDiff dmap new_answer comment ready rw rows idx rd k :: out.diffs,
        stepChanged dmap new_answer comment ready rw rows idx rd k || out.llm⟩

/-- The `review_notes` stamp of `update_records` (review_app.py:495). -/
def correctionNote (timestamp reviewer comment : Str) : Str :=
  "Исправлено ".toList ++ timestamp ++ " (".toList ++ reviewer ++ "): ".toList ++
    stripS comment

/-- The list `batch_rows` (review_app.py:499-508). -/
def correctionBatch (rows : List QaRow) (selected : List Nat) : List BatchRow :=
  selected.map fun idx =>
    (⟨idx, (rows.getD idx dfltRow).question, (rows.getD idx dfltRow).answer⟩ :
      BatchRow)

/-- The detector call plus the per-row loop of `update_records`
(review_app.py:510-591), starting from `rewrites_done = 0`. -/
def correctionLoopOf (st : St) (new_answer comment timestamp reviewer : Str)
    (selected : List Nat) (ready : Bool)
    (det : Nat → Option (List DetectItem)) (rw : Nat → Option Str) : LoopOut :=
  correctLoop
    (detect_inconsistencies (correctionBatch st.rows selected) new_answer comment
      ready det)
    new_answer comment (correctionNote timestamp reviewer comment) ready rw
    selected st.rows 0 0

/-- Model of `update_records` (review_app.py:468-611): apply a correction to the
KB entry at `kb_index`, sync the cluster, run the detector once over the
candidate rows, rewrite flagged rows under the budget, and append one
`corrected` log record.  `timestamp` stands for `datetime.now()`. -/
def update_records (st : St) (kb_index : Nat)
    (new_answer reviewer comment : Str) (selected : List Nat)
    (timestamp : Str) (ready : Bool)
    (det : Nat → Option (List DetectItem)) (rw : Nat → Option Str) :
    St × LogRec :=
  let entry := st.kb.getD kb_index dfltEntry
  let canonical_question := entry.canonical_question
  let previous_kb_answer := entry.best_answer
  let entry' :=
    { entry with
      best_answer := stripS new_answer
      last_reviewed_at := timestamp
      last_reviewer := reviewer
      review_comment := stripS comment
      pending_review := false }
  let kb' := st.kb.set kb_index entry'
  let clusters' := updClusterAnswer st.clusters canonical_question (stripS new_answer)
  let out := correctionLoopOf st new_answer comment timestamp reviewer selected
    ready det rw
  let rec0 : LogRec :=
    { canonical_question := canonical_question
      reviewed_at := timestamp
      reviewer := reviewer
      comment := stripS comment
      corrected_answer := stripS new_answer
      updated_rows := out.upds
      rtype := strCorrected
      nlu_regenerated := !out.upds.isEmpty
      previous_kb_answer := some previous_kb_answer
      previous_rows := out.prevs
      llm_used := out.llm
      row_diffs := out.diffs }
  (⟨kb', clusters', out.rows, append_correction_log st.log rec0⟩, rec0)

/-- Model of `confirm_entry` (review_app.py:614-636). -/
def confirm_entry (st : St) (kb_index : Nat) (reviewer comment : Str)
    (timestamp : Str) : St × LogRec :=
  let entry := st.kb.getD kb_index dfltEntry
  let entry' :=
    { entry with
      pending_review := false
      last_reviewed_at := timestamp
      last_reviewer := reviewer
      review_comment := stripS comment }
  let kb' := st.kb.set kb_index entry'
  let rec0 : LogRec :=
    { canonical_question := entry.canonical_question
      reviewed_at := timestamp
      reviewer := reviewer
      comment := stripS comment
      rtype := strConfirmed }
  (⟨kb', st.clusters, st.rows, append_correction_log st.log rec0⟩, rec0)

/-- The KB-restore walk of `undo_last_correction`: the first entry whose
`canonical_question` matches is rewound (then `break`). -/
def undoKb (q prev reviewed_at reviewer : Str) : List KbEntry → List KbEntry
  | [] => []
  | e :: rest =>
    if e.canonical_question = q then
      { e with
        best_answer := prev
        pending_review := true
        last_reviewed_at := reviewed_at
        last_reviewer := reviewer
        review_comment := "Откат к версии от ".toList ++ reviewed_at } :: rest
    else e :: undoKb q prev reviewed_at reviewer rest

/-- The row-restore walk for one snapshot: the first row matching
`(call_id, pair_index)` gets the previous answer and `needs_review=True`
(then `break`). -/
def restoreRow (c : Str) (p : Nat) (a note : Str) : List QaRow → List QaRow
  | [] => []
  | r :: rest =>
    if r.call_id = c ∧ r.pair_index = p then
      { r with answer := a, needs_review := true, review_notes := note } :: rest
    else r :: restoreRow c p a note rest

/-- The `previous_rows` loop of `undo_last_correction`: snapshots with a
falsy `call_id` or `pair_index` are skipped. -/
def undoRows (note : Str) (snaps : List RowSnapshot) (rows : List QaRow) :
    List QaRow :=
  snaps.foldl
    (fun rs s =>
      if s.call_id.isEmpty || s.pair_index = 0 then rs
      else restoreRow s.call_id s.pair_index s.previous_answer note rs)
    rows

/-- Model of `undo_last_correction` (review_app.py:369-424).  `now` stands for
`datetime.now()`.  Both failure paths raise before any collection is
touched. -/
def msgNoCorrection : Str := "Нет исправлений, которые можно отменить.".toList

def msgNoPrevAnswer : Str := "Не сохранён предыдущий ответ для отката.".toList

/-- The undo note stamped on restored rows (review_app.py:399). -/
def undoRowNote (reviewed_at reviewer : Str) : Str :=
  "Откат правки от ".toList ++ reviewed_at ++ " (".toList ++ reviewer ++ ")".toList

/-- The `undo` log record (review_app.py:417-422). -/
def undoRecOf (canonical_question now reviewed_at : Str) : LogRec :=
  { canonical_question := canonical_question
    undone_at := now
    undone_record := reviewed_at
    rtype := strUndo }

def undo_last_correction (st : St) (canonical_question : Str) (now : Str) :
    Except Str (St × LogRec) :=
  match find_last_correction st.log canonical_question with
  | none => .error msgNoCorrection
  | some record =>
    match record.previous_kb_answer with
    | none => .error msgNoPrevAnswer
    | some prev_answer =>
      let kb' := undoKb canonical_question prev_answer record.reviewed_at
        record.reviewer st.kb
      let clusters' := updClusterAnswer st.clusters canonical_question prev_answer
      let rows' := undoRows (undoRowNote record.reviewed_at record.reviewer)
        record.previous_rows st.rows
      let undoRec := undoRecOf canonical_question now record.reviewed_at
      .ok (⟨kb', clusters', rows', append_correction_log st.log undoRec⟩, undoRec)

/-! ## String-function lemmas -/

theorem pfx_iff (p : Str) : ∀ s, pfx p s = true ↔ ∃ t, s = p ++ t := by
  induction p with
  | nil => intro s; simp [pfx]
  | cons a as ih =>
    intro s
    cases s with
    | nil => simp [pfx]
    | cons b bs =>
      simp only [pfx, List.cons_append]
      by_cases hab : a = b
      · subst hab
        rw [if_pos rfl, ih bs]
        constructor
        · rintro ⟨t, ht⟩
          exact ⟨t, by rw [ht]⟩
        · rintro ⟨t, ht⟩
          injection ht with h1 h2
          exact ⟨t, h2⟩
      · rw [if_neg hab]
        constructor
        · intro h
          exact Bool.noConfusion h
        · rintro ⟨t, ht⟩
          injection ht with h1 h2
          exact absurd h1.symm hab

theorem pfx_nil_iff (p : Str) : pfx p [] = true ↔ p = [] := by
  cases p <;> simp [pfx]

theorem replaceFirst_spec (pat rep : Str) : ∀ s, containsSub pat s = true →
    ∃ i, pfx pat (s.drop i) = true ∧ (∀ j, j < i → pfx pat (s.drop j) = false) ∧
      replaceFirst pat rep s = s.take i ++ rep ++ s.drop (i + pat.length) := by
  intro s
  induction s with
  | nil =>
    intro h
    have hp : pat = [] := by
      simpa [containsSub, pfx_nil_iff] using h
    subst hp
    exact ⟨0, by simp [pfx], by omega, by simp [replaceFirst]⟩
  | cons c rest ih =>
    intro h
    by_cases hp : pfx pat (c :: rest) = true
    · refine ⟨0, hp, by omega, ?_⟩
      simp [replaceFirst, hp]
    · have h' : containsSub pat rest = true := by
        have := h
        simp [containsSub, hp] at this
        exact this
      obtain ⟨i, h1, h2, h3⟩ := ih h'
      refine ⟨i + 1, by simpa using h1, ?_, ?_⟩
      · intro j hj
        cases j with
        | zero => simpa using Bool.eq_false_iff.mpr hp
        | succ j' => simpa using h2 j' (by omega)
      · have hdrop : i + 1 + pat.length = (i + pat.length) + 1 := by omega
        simp [replaceFirst, hp, h3, hdrop]

/-! ## Claim C2: rewrite exactness -/

/-- Claim C2: if `rewrite_snippet` reports `changed=true` then the answer
it returns is the original with exactly the first occurrence of `snippet`
replaced by the collaborator's (stripped) replacement, everything outside
that span unchanged; and with the collaborator available, a non-empty
snippet and a parsed response, `changed=true` holds exactly when the
replacement is non-empty and the snippet occurs verbatim, the two failure
checks returning the original with reasons `empty_rewrite` and
`snippet_not_found` respectively. -/
theorem C2_rewrite_exactness (original snippet canonical comment : Str)
    (ready : Bool) (resp : Option Str) :
    (∀ field, resp = some field →
      (rewrite_snippet original snippet canonical comment ready resp).2.1 = true →
      ∃ i, pfx snippet (original.drop i) = true ∧
        (∀ j, j < i → pfx snippet (original.drop j) = false) ∧
        stripS field ≠ [] ∧
        (rewrite_snippet original snippet canonical comment ready resp).1 =
          original.take i ++ stripS field ++ original.drop (i + snippet.length)) ∧
    ((rewrite_snippet original snippet canonical comment ready resp).2.1 = true →
      resp.isSome = true) ∧
    (∀ field, ready = true → snippet ≠ [] → resp = some field →
      (stripS field = [] →
        rewrite_snippet original snippet canonical comment ready resp =
          (original, false, strEmptyRewrite)) ∧
      (stripS field ≠ [] → containsSub snippet original = false →
        rewrite_snippet original snippet canonical comment ready resp =
          (original, false, strSnippetNotFound)) ∧
      (stripS field ≠ [] → containsSub snippet original = true →
        (rewrite_snippet original snippet canonical comment ready resp).2.1 = true)) := by
  refine ⟨?_, ?_, ?_⟩
  · intro field hresp hch
    subst hresp
    by_cases hs : snippet = []
    · simp [rewrite_snippet, hs] at hch
    · cases hready : ready with
      | false => simp [rewrite_snippet, hready] at hch
      | true =>
        by_cases hrep : stripS field = []
        · simp [rewrite_snippet, hs, hready, hrep] at hch
        · by_cases hsub : containsSub snippet original = true
          · obtain ⟨i, h1, h2, h3⟩ := replaceFirst_spec snippet (stripS field) original hsub
            exact ⟨i, h1, h2, hrep, by simp [rewrite_snippet, hs, hready, hrep, hsub, h3]⟩
          · simp [rewrite_snippet, hs, hready, hrep, hsub] at hch
  · intro hch
    cases resp with
    | none =>
      by_cases hs : snippet = [] <;> cases hready : ready <;>
        simp [rewrite_snippet, hs, hready] at hch ⊢
    | some field => rfl
  · intro field hready hs hresp
    subst hresp hready
    refine ⟨?_, ?_, ?_⟩
    · intro hrep
      simp [rewrite_snippet, hs, hrep]
    · intro hrep hsub
      simp [rewrite_snippet, hs, hrep, hsub]
    · intro hrep hsub
      simp [rewrite_snippet, hs, hrep, hsub]

def exOriginal : Str := "xayz".toList
def exSnippet : Str := "a".toList
def exField : Str := " b ".toList

/-- Witness for C2 at a concrete input: original `"xayz"`, snippet `"a"`,
replacement `" b "` (stripped to `"b"`); the rewrite fires at index 1. -/
theorem C2_rewrite_exactness_witness :
    ∃ i, pfx exSnippet (exOriginal.drop i) = true ∧
      (∀ j, j < i → pfx exSnippet (exOriginal.drop j) = false) ∧
      stripS exField ≠ [] ∧
      (rewrite_snippet exOriginal exSnippet [] [] true (some exField)).1 =
        exOriginal.take i ++ stripS exField ++ exOriginal.drop (i + exSnippet.length) :=
  (C2_rewrite_exactness exOriginal exSnippet [] [] true (some exField)).1
    exField rfl (by decide)

theorem rewrite_snippet_unchanged (original snippet canonical comment : Str)
    (ready : Bool) (resp : Option Str)
    (h : (rewrite_snippet original snippet canonical comment ready resp).2.1 = false) :
    (rewrite_snippet original snippet canonical comment ready resp).1 = original := by
  by_cases hs : snippet = []
  · simp [rewrite_snippet, hs]
  · cases ready with
    | false => simp [rewrite_snippet, hs]
    | true =>
      cases resp with
      | none => simp [rewrite_snippet, hs]
      | some field =>
        by_cases hrep : stripS field = []
        · simp [rewrite_snippet, hs, hrep]
        · by_cases hsub : containsSub snippet original = true
          · simp [rewrite_snippet, hs, hrep, hsub] at h
          · simp [rewrite_snippet, hs, hrep, hsub]

theorem rewrite_reason_ne_limit (original snippet canonical comment : Str)
    (ready : Bool) (resp : Option Str) :
    (rewrite_snippet original snippet canonical comment ready resp).2.2 ≠ strLimit := by
  have h1 : ¬(strNoSnippet = strLimit) := by decide
  have h2 : ¬(strParseErrRewrite = strLimit) := by decide
  have h3 : ¬(strEmptyRewrite = strLimit) := by decide
  have h4 : ¬(strFixed = strLimit) := by decide
  have h5 : ¬(strSnippetNotFound = strLimit) := by decide
  by_cases hs : snippet = []
  · simpa [rewrite_snippet, hs] using h1
  · cases ready with
    | false => simpa [rewrite_snippet, hs] using h1
    | true =>
      cases resp with
      | none => simpa [rewrite_snippet, hs] using h2
      | some field =>
        by_cases hrep : stripS field = []
        · simpa [rewrite_snippet, hs, hrep] using h3
        · by_cases hsub : containsSub snippet original = true
          · simpa [rewrite_snippet, hs, hrep, hsub] using h4
          · simpa [rewrite_snippet, hs, hrep, hsub] using h5

/-! ## Claim C10: rewrite failure atomicity -/

/-- Claim C10: on every path on which `rewrite_snippet` reports
`changed=false` — collaborator unavailable, empty snippet, unparseable
response, empty replacement, snippet not found — the answer it returns
is byte-identical to the original. -/
theorem C10_rewrite_failure_atomicity (original snippet canonical comment : Str)
    (ready : Bool) (resp : Option Str)
    (h : (rewrite_snippet original snippet canonical comment ready resp).2.1 = false) :
    (rewrite_snippet original snippet canonical comment ready resp).1 = original :=
  rewrite_snippet_unchanged original snippet canonical comment ready resp h

/-- Witness for C10: an unparseable response (`resp = none`) with the
collaborator available leaves the original untouched. -/
theorem C10_rewrite_failure_atomicity_witness :
    (rewrite_snippet exOriginal exSnippet [] [] true none).2.1 = false ∧
    (rewrite_snippet exOriginal exSnippet [] [] true none).1 = exOriginal :=
  ⟨by decide, C10_rewrite_failure_atomicity exOriginal exSnippet [] [] true none (by decide)⟩

/-! ## Claim C5: idempotent append -/

theorem getLast?_append_correction_log (log : List LogRec) (r : LogRec) :
    (append_correction_log log r).getLast? = some r := by
  unfold append_correction_log
  split
  · assumption
  · exact List.getLast?_concat _

/-- Claim C5: appending a record content-equal to the most recent record
in the log is a no-op, so appending an identical record twice in a row
yields exactly one new entry, not two. -/
theorem C5_idempotent_append (log : List LogRec) (r : LogRec) :
    (log.getLast? = some r → append_correction_log log r = log) ∧
    append_correction_log (append_correction_log log r) r =
      append_correction_log log r ∧
    (append_correction_log (append_correction_log log r) r).length ≤
      log.length + 1 := by
  have h2 : append_correction_log (append_correction_log log r) r =
      append_correction_log log r := by
    rw [append_correction_log, if_pos (getLast?_append_correction_log log r)]
  refine ⟨fun h => by rw [append_correction_log, if_pos h], h2, ?_⟩
  rw [h2]
  unfold append_correction_log
  split
  · exact Nat.le_succ _
  · simp

def exRec : LogRec := { rtype := strConfirmed }

/-- Witness for C5: on a log already ending in `exRec`, the append is
suppressed, and a double append from the empty log leaves one entry. -/
theorem C5_idempotent_append_witness :
    append_correction_log [exRec] exRec = [exRec] ∧
    (append_correction_log (append_correction_log [] exRec) exRec).length ≤ 0 + 1 :=
  ⟨(C5_idempotent_append [exRec] exRec).1 (by decide),
    (C5_idempotent_append [] exRec).2.2⟩

/-! ## Claim C4: detector degradation without credentials (code bug) -/

def c4Row : BatchRow := ⟨0, [], "a".toList⟩

/-- Claim C4 (code-bug evaluation): with no credentials configured and one
candidate row, the effective `detect_inconsistencies` (the second, shadowing
definition) still takes the collaborator path — `call_openai` yields `None`,
parsing fails — and marks the row `reason="parse_error"` instead of the
claimed `"no_change_needed"`; the shadowed first definition returns the
claimed all-false default for every oracle without consulting it. -/
theorem C4_detect_unavailable_divergence :
    detect_inconsistencies [c4Row] [] [] false (fun _ => none) =
      [(0, ⟨false, strParseErr, []⟩)] ∧
    strParseErr ≠ strNoChange ∧
    (∀ oracle, detect_inconsistencies_v1 [c4Row] [] [] false oracle =
      [(0, ⟨false, strNoChange, []⟩)]) :=
  ⟨by decide, by decide, fun _ => rfl⟩

/-! ## Claim C8: candidate resolver membership -/

theorem candAux_mem (ids phs : List Str) : ∀ (rows : List QaRow) (k i : Nat),
    i ∈ candAux ids phs k rows ↔
      ∃ j, j < rows.length ∧ i = k + j ∧
        rowIncluded ids phs (rows.getD j dfltRow) = true := by
  intro rows
  induction rows with
  | nil => simp [candAux]
  | cons r rest ih =>
    intro k i
    have hif : i ∈ (if rowIncluded ids phs r then [k] else []) ↔
        (rowIncluded ids phs r = true ∧ i = k) := by
      split
      · next h => simp only [List.mem_singleton]; exact ⟨fun he => ⟨h, he⟩, fun hp => hp.2⟩
      · next h => simp only [List.not_mem_nil, false_iff]; exact fun hp => h hp.1
    rw [candAux, List.mem_append, hif, ih]
    constructor
    · rintro (⟨hr, rfl⟩ | ⟨j, hj, rfl, hinc⟩)
      · exact ⟨0, by simp, by omega, by simpa using hr⟩
      · refine ⟨j + 1, ?_, by omega, by simpa using hinc⟩
        simp only [List.length_cons]
        omega
    · rintro ⟨j, hj, rfl, hinc⟩
      cases j with
      | zero => exact Or.inl ⟨by simpa using hinc, by omega⟩
      | succ j' =>
        refine Or.inr ⟨j', ?_, by omega, by simpa using hinc⟩
        simp only [List.length_cons] at hj
        omega

theorem low_eq_nil_iff (p : Str) : low p = [] ↔ p = [] := by
  cases p <;> simp [low]

theorem not_isEmpty_of_ne {p : Str} (h : p ≠ []) : (!p.isEmpty) = true := by
  cases p
  · exact absurd rfl h
  · rfl

theorem ne_nil_of_not_isEmpty {p : Str} (h : (!p.isEmpty) = true) : p ≠ [] := by
  cases p
  · exact absurd h (by decide)
  · simp

theorem phrases_any_iff (q : Str) (nd : List Str) (question : Str) :
    ((low q :: (nd.filter (fun p => !p.isEmpty)).map low).any
        (fun p => !p.isEmpty && containsSub p question)) = true ↔
      ∃ p, (p = q ∨ p ∈ nd) ∧ p ≠ [] ∧ containsSub (low p) question = true := by
  constructor
  · intro h
    rcases List.any_eq_true.mp h with ⟨ph, hmem, hph⟩
    rcases Bool.and_eq_true_iff.mp hph with ⟨hne, hc⟩
    rcases List.mem_cons.mp hmem with hq | hmap
    · subst hq
      refine ⟨q, Or.inl rfl, ?_, hc⟩
      intro hnil
      rw [hnil] at hne
      exact absurd hne (by simp [low])
    · rcases List.mem_map.mp hmap with ⟨p, hpf, rfl⟩
      rcases List.mem_filter.mp hpf with ⟨hpnd, hpne⟩
      exact ⟨p, Or.inr hpnd, ne_nil_of_not_isEmpty hpne, hc⟩
  · rintro ⟨p, hp | hpnd, hne, hc⟩
    · subst hp
      refine List.any_eq_true.mpr ⟨low p, List.mem_cons_self _ _, ?_⟩
      exact Bool.and_eq_true_iff.mpr
        ⟨not_isEmpty_of_ne fun h => hne ((low_eq_nil_iff p).mp h), hc⟩
    · refine List.any_eq_true.mpr
        ⟨low p,
          List.mem_cons_of_mem _
            (List.mem_map.mpr ⟨p, List.mem_filter.mpr ⟨hpnd, not_isEmpty_of_ne hne⟩, rfl⟩),
          ?_⟩
      exact Bool.and_eq_true_iff.mpr
        ⟨not_isEmpty_of_ne fun h => hne ((low_eq_nil_iff p).mp h), hc⟩

/-- Claim C8 (amended): with no cluster for the question the result is
empty; with a cluster, a row's index is a candidate iff its `call_id` is
among the cluster's source conversation ids, or its case-folded question
contains the case-folded canonical question *when that is non-empty* or
any non-empty case-folded `near_duplicates` phrase (the source guards
every phrase, the canonical question included, with Python truthiness,
so an empty canonical question never matches). -/
theorem C8_candidate_membership (q : Str) (cm : List (Str × Cluster))
    (rows : List QaRow) :
    (lookupC cm q = none → find_candidate_rows q cm rows = []) ∧
    (∀ c, lookupC cm q = some c → ∀ i,
      (i ∈ find_candidate_rows q cm rows ↔
        i < rows.length ∧
          (c.source_conversation_ids.contains (rows.getD i dfltRow).call_id = true ∨
            ∃ p, (p = q ∨ p ∈ c.near_duplicates) ∧ p ≠ [] ∧
              containsSub (low p) (low (rows.getD i dfltRow).question) = true))) := by
  constructor
  · intro h
    unfold find_candidate_rows
    rw [h]
  · intro c hc i
    unfold find_candidate_rows
    rw [hc, candAux_mem]
    constructor
    · rintro ⟨j, hj, hij, hinc⟩
      have hji : j = i := by omega
      subst hji
      refine ⟨hj, ?_⟩
      rcases (Iff.of_eq (Bool.or_eq_true _ _)).mp hinc with hcall | hph
      · exact Or.inl hcall
      · exact Or.inr ((phrases_any_iff q c.near_duplicates _).mp hph)
    · rintro ⟨hi, hcase⟩
      refine ⟨i, hi, by omega, ?_⟩
      refine (Iff.of_eq (Bool.or_eq_true _ _)).mpr ?_
      rcases hcase with hcall | hph
      · exact Or.inl hcall
      · exact Or.inr ((phrases_any_iff q c.near_duplicates _).mpr hph)

def c8Cluster : Cluster := ⟨[], [], []⟩

def c8Row : QaRow := ⟨"x".toList, 1, "h".toList, [], false, []⟩

/-- Counterexample to C8 as stated: take the empty canonical question with
a cluster registered for it and a row whose `call_id` is not a source id.
The row's case-folded question contains the case-folded canonical question
(the empty string is a substring of everything), so the claim's iff puts
index 0 in the result; the code returns the empty list, because the
truthiness guard `phrase and phrase in question` drops the empty phrase. -/
theorem C8_counterexample :
    lookupC [([], c8Cluster)] [] = some c8Cluster ∧
    containsSub (low []) (low c8Row.question) = true ∧
    c8Cluster.source_conversation_ids.contains c8Row.call_id = false ∧
    find_candidate_rows [] [([], c8Cluster)] [c8Row] = [] := by
  decide

def c8q : Str := "h".toList

/-- Witness for C8 (amended) at a concrete input: the canonical question
`"h"` matches row 0 by substring, so index 0 is a candidate. -/
theorem C8_candidate_membership_witness :
    0 ∈ find_candidate_rows c8q [(c8q, c8Cluster)] [c8Row] ↔
      0 < ([c8Row] : List QaRow).length ∧
        (c8Cluster.source_conversation_ids.contains
            (([c8Row] : List QaRow).getD 0 dfltRow).call_id = true ∨
          ∃ p, (p = c8q ∨ p ∈ c8Cluster.near_duplicates) ∧ p ≠ [] ∧
            containsSub (low p) (low (([c8Row] : List QaRow).getD 0 dfltRow).question) =
              true) :=
  (C8_candidate_membership c8q [(c8q, c8Cluster)] [c8Row]).2 c8Cluster (by decide) 0

/-! ## List getD/set helpers -/

theorem getD_set_self {α : Type} : ∀ (l : List α) (i : Nat) (v d : α),
    i < l.length → (l.set i v).getD i d = v := by
  intro l
  induction l with
  | nil => intro i v d h; simp at h
  | cons a as ih =>
    intro i v d h
    cases i with
    | zero => rfl
    | succ i' =>
      simp only [List.set_cons_succ, List.getD_cons_succ]
      exact ih i' v d (by simpa using h)

theorem getD_set_ne {α : Type} : ∀ (l : List α) (i j : Nat) (v d : α),
    j ≠ i → (l.set i v).getD j d = l.getD j d := by
  intro l
  induction l with
  | nil => intro i j v d _; rfl
  | cons a as ih =>
    intro i j v d h
    cases i with
    | zero =>
      cases j with
      | zero => exact absurd rfl h
      | succ j' => rfl
    | succ i' =>
      cases j with
      | zero => rfl
      | succ j' =>
        simp only [List.set_cons_succ, List.getD_cons_succ]
        exact ih i' j' v d (by omega)

/-! ## Claim C9: confirm frame effect -/

def c9Q : Str := "q".toList
def c9R : Str := "r".toList
def c9T : Str := "t".toList

def c9Entry : KbEntry := ⟨c9Q, [], [], true, [], [], []⟩

def c9Rec : LogRec :=
  { canonical_question := c9Q, reviewed_at := c9T, reviewer := c9R,
    comment := [], rtype := strConfirmed }

def c9St : St := ⟨[c9Entry], [], [], [c9Rec]⟩

/-- Counterexample to C9 as stated: when the log's most recent record is
already content-equal to the `confirmed` record the operation builds
(same question, reviewer, comment and minute-granularity timestamp —
e.g. the form submitted twice within one minute), `append_correction_log`
suppresses the append, so `confirm` appends no record at all: the log
still has exactly one entry afterwards, not two. -/
theorem C9_counterexample :
    c9St.log.getLast? = some (confirm_entry c9St 0 c9R [] c9T).2 ∧
    (confirm_entry c9St 0 c9R [] c9T).1.log = [c9Rec] ∧
    (confirm_entry c9St 0 c9R [] c9T).1.log.length = c9St.log.length ∧
    ((confirm_entry c9St 0 c9R [] c9T).1.kb.getD 0 dfltEntry).pending_review = false := by
  decide

/-- Claim C9 (amended): `confirm` stamps the targeted KB entry
(`pending_review=false`, reviewer/time/comment), leaves the QA rows, the
clusters and every other KB entry unchanged, and appends one `confirmed`
log record — unless that record is content-equal to the most recent log
record, in which case the idempotent append leaves the log unchanged. -/
theorem C9_confirm_frame (st : St) (kb_index : Nat)
    (reviewer comment timestamp : Str) (hkb : kb_index < st.kb.length) :
    (confirm_entry st kb_index reviewer comment timestamp).1.rows = st.rows ∧
    (confirm_entry st kb_index reviewer comment timestamp).1.clusters = st.clusters ∧
    (confirm_entry st kb_index reviewer comment timestamp).1.kb.length = st.kb.length ∧
    (∀ j, j ≠ kb_index →
      (confirm_entry st kb_index reviewer comment timestamp).1.kb.getD j dfltEntry =
        st.kb.getD j dfltEntry) ∧
    (confirm_entry st kb_index reviewer comment timestamp).1.kb.getD kb_index dfltEntry =
      { st.kb.getD kb_index dfltEntry with
          pending_review := false
          last_reviewed_at := timestamp
          last_reviewer := reviewer
          review_comment := stripS comment } ∧
    (confirm_entry st kb_index reviewer comment timestamp).2.rtype = strConfirmed ∧
    (st.log.getLast? ≠ some (confirm_entry st kb_index reviewer comment timestamp).2 →
      (confirm_entry st kb_index reviewer comment timestamp).1.log =
        st.log ++ [(confirm_entry st kb_index reviewer comment timestamp).2]) ∧
    (st.log.getLast? = some (confirm_entry st kb_index reviewer comment timestamp).2 →
      (confirm_entry st kb_index reviewer comment timestamp).1.log = st.log) := by
  refine ⟨rfl, rfl, by simp [confirm_entry], ?_, ?_, rfl, ?_, ?_⟩
  · intro j hj
    exact getD_set_ne st.kb kb_index j _ dfltEntry hj
  · exact getD_set_self st.kb kb_index _ dfltEntry hkb
  · intro h
    exact if_neg h
  · intro h
    exact if_pos h

def c9St2 : St := ⟨[c9Entry], [], [], []⟩

/-- Witness for C9 (amended): on an empty log the `confirmed` record is
appended and the entry is stamped. -/
theorem C9_confirm_frame_witness :
    (confirm_entry c9St2 0 c9R [] c9T).1.kb.getD 0 dfltEntry =
      { c9St2.kb.getD 0 dfltEntry with
          pending_review := false
          last_reviewed_at := c9T
          last_reviewer := c9R
          review_comment := stripS [] } :=
  (C9_confirm_frame c9St2 0 c9R [] c9T (by decide)).2.2.2.2.1

/-! ## Lemmas about one iteration of the correction loop -/

theorem correctStep_rd_mono (dmap : List (Nat × DetectInfo)) (na cm : Str)
    (ready : Bool) (rw : Nat → Option Str) (row : QaRow) (idx rd k : Nat) :
    rd ≤ (correctStep dmap na cm ready rw row idx rd k).2.2.2.1 ∧
    (correctStep dmap na cm ready rw row idx rd k).2.2.2.1 ≤ rd + 1 := by
  by_cases hne : ((lookupD dmap idx).getD dfltInfo).needs_edit = true
  · by_cases hsn : ((lookupD dmap idx).getD dfltInfo).snippet.isEmpty = true
    · simp [correctStep, hne, hsn]
    · by_cases hrd : rd < MAX_REWRITES
      · rcases hrw : rewrite_snippet row.answer
            ((lookupD dmap idx).getD dfltInfo).snippet na cm ready (rw k) with ⟨a, b, c⟩
        cases b <;> simp [correctStep, hne, hsn, hrd, hrw]
      · simp [correctStep, hne, hsn, hrd]
  · simp [correctStep, hne]

theorem correctStep_changed_rd (dmap : List (Nat × DetectInfo)) (na cm : Str)
    (ready : Bool) (rw : Nat → Option Str) (row : QaRow) (idx rd k : Nat)
    (h : (correctStep dmap na cm ready rw row idx rd k).2.1 = true) :
    (correctStep dmap na cm ready rw row idx rd k).2.2.2.1 = rd + 1 := by
  by_cases hne : ((lookupD dmap idx).getD dfltInfo).needs_edit = true
  · by_cases hsn : ((lookupD dmap idx).getD dfltInfo).snippet.isEmpty = true
    · simp [correctStep, hne, hsn] at h
    · by_cases hrd : rd < MAX_REWRITES
      · rcases hrw : rewrite_snippet row.answer
            ((lookupD dmap idx).getD dfltInfo).snippet na cm ready (rw k) with ⟨a, b, c⟩
        cases b
        · simp [correctStep, hne, hsn, hrd, hrw] at h
        · simp [correctStep, hne, hsn, hrd, hrw]
      · simp [correctStep, hne, hsn, hrd] at h
  · simp [correctStep, hne] at h

theorem correctStep_unchanged (dmap : List (Nat × DetectInfo)) (na cm : Str)
    (ready : Bool) (rw : Nat → Option Str) (row : QaRow) (idx rd k : Nat)
    (h : (correctStep dmap na cm ready rw row idx rd k).2.1 = false) :
    (correctStep dmap na cm ready rw row idx rd k).1 = row.answer := by
  by_cases hne : ((lookupD dmap idx).getD dfltInfo).needs_edit = true
  · by_cases hsn : ((lookupD dmap idx).getD dfltInfo).snippet.isEmpty = true
    · simp [correctStep, hne, hsn]
    · by_cases hrd : rd < MAX_REWRITES
      · rcases hrw : rewrite_snippet row.answer
            ((lookupD dmap idx).getD dfltInfo).snippet na cm ready (rw k) with ⟨a, b, c⟩
        have hun := rewrite_snippet_unchanged row.answer
          ((lookupD dmap idx).getD dfltInfo).snippet na cm ready (rw k)
        rw [hrw] at hun
        simp [correctStep, hne, hsn, hrd, hrw] at h ⊢
        exact hun h
      · simp [correctStep, hne, hsn, hrd]
  · simp [correctStep, hne]

theorem correctStep_limit (dmap : List (Nat × DetectInfo)) (na cm : Str)
    (ready : Bool) (rw : Nat → Option Str) (row : QaRow) (idx rd k : Nat)
    (h : (correctStep dmap na cm ready rw row idx rd k).2.2.1 = strLimit) :
    (correctStep dmap na cm ready rw row idx rd k).2.1 = false := by
  by_cases hne : ((lookupD dmap idx).getD dfltInfo).needs_edit = true
  · by_cases hsn : ((lookupD dmap idx).getD dfltInfo).snippet.isEmpty = true
    · simp [correctStep, hne, hsn]
    · by_cases hrd : rd < MAX_REWRITES
      · rcases hrw : rewrite_snippet row.answer
            ((lookupD dmap idx).getD dfltInfo).snippet na cm ready (rw k) with ⟨a, b, c⟩
        have hnl := rewrite_reason_ne_limit row.answer
          ((lookupD dmap idx).getD dfltInfo).snippet na cm ready (rw k)
        rw [hrw] at hnl
        simp [correctStep, hne, hsn, hrd, hrw] at h ⊢
        exact absurd h hnl
      · simp [correctStep, hne, hsn, hrd]
  · simp [correctStep, hne] at h ⊢

/-! ## Lemmas about the loop step components -/

theorem stepRows_length (dmap : List (Nat × DetectInfo)) (na cm note : Str)
    (ready : Bool) (rw : Nat → Option Str) (rows : List QaRow) (idx rd k : Nat) :
    (stepRows dmap na cm note ready rw rows idx rd k).length = rows.length := by
  unfold stepRows
  split
  · simp
  · rfl

/-! ## Lemmas about the whole correction loop -/

theorem correctLoop_diffs_length (dmap : List (Nat × DetectInfo))
    (na cm note : Str) (ready : Bool) (rw : Nat → Option Str) :
    ∀ (l : List Nat) (rows : List QaRow) (rd k : Nat),
      (correctLoop dmap na cm note ready rw l rows rd k).diffs.length = l.length := by
  intro l
  induction l with
  | nil => intro rows rd k; rfl
  | cons idx rest ih =>
    intro rows rd k
    by_cases hrd : MAX_REWRITES ≤ rd
    · simp [correctLoop, hrd, ih]
    · simp [correctLoop, hrd, ih]

theorem correctLoop_rows_length (dmap : List (Nat × DetectInfo))
    (na cm note : Str) (ready : Bool) (rw : Nat → Option Str) :
    ∀ (l : List Nat) (rows : List QaRow) (rd k : Nat),
      (correctLoop dmap na cm note ready rw l rows rd k).rows.length = rows.length := by
  intro l
  induction l with
  | nil => intro rows rd k; rfl
  | cons idx rest ih =>
    intro rows rd k
    by_cases hrd : MAX_REWRITES ≤ rd
    · simp [correctLoop, hrd, ih]
    · simp only [correctLoop, if_neg hrd]
      rw [ih]
      exact stepRows_length dmap na cm note ready rw rows idx rd k

theorem correctLoop_skip (dmap : List (Nat × DetectInfo))
    (na cm note : Str) (ready : Bool) (rw : Nat → Option Str) :
    ∀ (l : List Nat) (rows : List QaRow) (rd k : Nat), MAX_REWRITES ≤ rd →
      (correctLoop dmap na cm note ready rw l rows rd k).rows = rows ∧
      (correctLoop dmap na cm note ready rw l rows rd k).prevs = [] ∧
      (∀ j, j < l.length →
        ((correctLoop dmap na cm note ready rw l rows rd k).diffs.getD j dfltDiff).reason
            = strLimit ∧
        ((correctLoop dmap na cm note ready rw l rows rd k).diffs.getD j dfltDiff).changed
            = false) := by
  intro l
  induction l with
  | nil =>
    intro rows rd k _
    exact ⟨rfl, rfl, fun j hj => absurd hj (by simp)⟩
  | cons idx rest ih =>
    intro rows rd k h
    obtain ⟨h1, h2, h3⟩ := ih rows rd k h
    refine ⟨by simp [correctLoop, h, h1], by simp [correctLoop, h, h2], ?_⟩
    intro j hj
    simp only [correctLoop, if_pos h]
    cases j with
    | zero => exact ⟨rfl, rfl⟩
    | succ j' =>
      simp only [List.getD_cons_succ]
      exact h3 j' (by simpa using hj)


theorem stepChanged_flag (dmap : List (Nat × DetectInfo)) (na cm : Str)
    (ready : Bool) (rw : Nat → Option Str) (rows : List QaRow) (idx rd k : Nat)
    (h : stepChanged dmap na cm ready rw rows idx rd k = true) :
    (correctStep dmap na cm ready rw (rows.getD idx dfltRow) idx rd k).2.1 = true :=
  (Bool.and_eq_true_iff.mp h).1

theorem stepChanged_false_eq (dmap : List (Nat × DetectInfo)) (na cm : Str)
    (ready : Bool) (rw : Nat → Option Str) (rows : List QaRow) (idx rd k : Nat)
    (h : stepChanged dmap na cm ready rw rows idx rd k = false) :
    (correctStep dmap na cm ready rw (rows.getD idx dfltRow) idx rd k).1 =
      (rows.getD idx dfltRow).answer := by
  rcases Bool.and_eq_false_iff.mp h with hf | hd
  · exact correctStep_unchanged dmap na cm ready rw (rows.getD idx dfltRow) idx rd k hf
  · simpa using hd

theorem stepDiff_changed (dmap : List (Nat × DetectInfo)) (na cm : Str)
    (ready : Bool) (rw : Nat → Option Str) (rows : List QaRow) (idx rd k : Nat) :
    (stepDiff dmap na cm ready rw rows idx rd k).changed =
      stepChanged dmap na cm ready rw rows idx rd k := rfl

theorem stepDiff_reason (dmap : List (Nat × DetectInfo)) (na cm : Str)
    (ready : Bool) (rw : Nat → Option Str) (rows : List QaRow) (idx rd k : Nat) :
    (stepDiff dmap na cm ready rw rows idx rd k).reason =
      (correctStep dmap na cm ready rw (rows.getD idx dfltRow) idx rd k).2.2.1 := rfl

theorem stepDiff_answers (dmap : List (Nat × DetectInfo)) (na cm : Str)
    (ready : Bool) (rw : Nat → Option Str) (rows : List QaRow) (idx rd k : Nat) :
    (stepDiff dmap na cm ready rw rows idx rd k).old_answer =
        (rows.getD idx dfltRow).answer ∧
      (stepDiff dmap na cm ready rw rows idx rd k).new_answer =
        (correctStep dmap na cm ready rw (rows.getD idx dfltRow) idx rd k).1 :=
  ⟨rfl, rfl⟩

theorem stepDiff_sane (dmap : List (Nat × DetectInfo)) (na cm : Str)
    (ready : Bool) (rw : Nat → Option Str) (rows : List QaRow) (idx rd k : Nat) :
    ((stepDiff dmap na cm ready rw rows idx rd k).changed = false →
      (stepDiff dmap na cm ready rw rows idx rd k).new_answer =
        (stepDiff dmap na cm ready rw rows idx rd k).old_answer) ∧
    ((stepDiff dmap na cm ready rw rows idx rd k).reason = strLimit →
      (stepDiff dmap na cm ready rw rows idx rd k).changed = false) := by
  constructor
  · intro h
    rw [stepDiff_changed] at h
    rw [(stepDiff_answers dmap na cm ready rw rows idx rd k).1,
      (stepDiff_answers dmap na cm ready rw rows idx rd k).2]
    exact stepChanged_false_eq dmap na cm ready rw rows idx rd k h
  · intro h
    rw [stepDiff_reason] at h
    rw [stepDiff_changed]
    have hflag := correctStep_limit dmap na cm ready rw (rows.getD idx dfltRow)
      idx rd k h
    exact Bool.and_eq_false_iff.mpr (Or.inl hflag)

theorem stepRows_getD_ne (dmap : List (Nat × DetectInfo)) (na cm note : Str)
    (ready : Bool) (rw : Nat → Option Str) (rows : List QaRow) (idx rd k : Nat)
    (i : Nat) (h : i ≠ idx) :
    (stepRows dmap na cm note ready rw rows idx rd k).getD i dfltRow =
      rows.getD i dfltRow := by
  unfold stepRows
  split
  · exact getD_set_ne rows idx i _ dfltRow h
  · rfl

theorem stepRows_unchanged (dmap : List (Nat × DetectInfo)) (na cm note : Str)
    (ready : Bool) (rw : Nat → Option Str) (rows : List QaRow) (idx rd k : Nat)
    (h : stepChanged dmap na cm ready rw rows idx rd k = false) :
    stepRows dmap na cm note ready rw rows idx rd k = rows := by
  unfold stepRows
  simp [h]

theorem stepRows_keys (dmap : List (Nat × DetectInfo)) (na cm note : Str)
    (ready : Bool) (rw : Nat → Option Str) (rows : List QaRow) (idx rd k : Nat)
    (i : Nat) :
    ((stepRows dmap na cm note ready rw rows idx rd k).getD i dfltRow).call_id =
        (rows.getD i dfltRow).call_id ∧
      ((stepRows dmap na cm note ready rw rows idx rd k).getD i dfltRow).pair_index =
        (rows.getD i dfltRow).pair_index := by
  by_cases hi : i = idx
  · subst hi
    unfold stepRows
    split
    · by_cases hlen : i < rows.length
      · rw [getD_set_self rows i _ dfltRow hlen]
        exact ⟨rfl, rfl⟩
      · rw [List.set_eq_of_length_le (by omega)]
        exact ⟨rfl, rfl⟩
    · exact ⟨rfl, rfl⟩
  · rw [stepRows_getD_ne dmap na cm note ready rw rows idx rd k i hi]
    exact ⟨rfl, rfl⟩

theorem stepRows_getD_self (dmap : List (Nat × DetectInfo)) (na cm note : Str)
    (ready : Bool) (rw : Nat → Option Str) (rows : List QaRow) (idx rd k : Nat)
    (hch : stepChanged dmap na cm ready rw rows idx rd k = true)
    (hlen : idx < rows.length) :
    (stepRows dmap na cm note ready rw rows idx rd k).getD idx dfltRow =
      { rows.getD idx dfltRow with
          answer := (correctStep dmap na cm ready rw (rows.getD idx dfltRow) idx rd k).1
          needs_review := false
          review_notes := note } := by
  unfold stepRows
  rw [if_pos hch]
  exact getD_set_self rows idx _ dfltRow hlen

theorem correctLoop_budget (dmap : List (Nat × DetectInfo))
    (na cm note : Str) (ready : Bool) (rw : Nat → Option Str) :
    ∀ (l : List Nat) (rows : List QaRow) (rd k : Nat), rd ≤ MAX_REWRITES →
      (correctLoop dmap na cm note ready rw l rows rd k).rd ≤ MAX_REWRITES ∧
      ((correctLoop dmap na cm note ready rw l rows rd k).diffs.filter
          RowDiff.changed).length + rd ≤
        (correctLoop dmap na cm note ready rw l rows rd k).rd := by
  intro l
  induction l with
  | nil => intro rows rd k h; exact ⟨h, by simp [correctLoop]⟩
  | cons idx rest ih =>
    intro rows rd k h
    by_cases hrd : MAX_REWRITES ≤ rd
    · obtain ⟨ha, hb⟩ := ih rows rd k h
      simp only [correctLoop, if_pos hrd]
      refine ⟨ha, ?_⟩
      have hc : ¬(RowDiff.changed (limitDiff rows idx) = true) := by
        intro hx
        exact Bool.noConfusion (show (false : Bool) = true from hx)
      rw [List.filter_cons_of_neg hc]
      exact hb
    · have hmono := correctStep_rd_mono dmap na cm ready rw (rows.getD idx dfltRow)
        idx rd k
      simp only [correctLoop, if_neg hrd]
      by_cases hch : stepChanged dmap na cm ready rw rows idx rd k = true
      · have hrdeq := correctStep_changed_rd dmap na cm ready rw (rows.getD idx dfltRow)
          idx rd k (stepChanged_flag dmap na cm ready rw rows idx rd k hch)
        obtain ⟨ha, hb⟩ := ih (stepRows dmap na cm note ready rw rows idx rd k)
          (correctStep dmap na cm ready rw (rows.getD idx dfltRow) idx rd k).2.2.2.1
          (correctStep dmap na cm ready rw (rows.getD idx dfltRow) idx rd k).2.2.2.2
          (by omega)
        refine ⟨ha, ?_⟩
        have hc : RowDiff.changed
            (stepDiff dmap na cm ready rw rows idx rd k) = true := hch
        rw [List.filter_cons_of_pos hc, List.length_cons]
        omega
      · have hch' : stepChanged dmap na cm ready rw rows idx rd k = false :=
          Bool.eq_false_iff.mpr hch
        obtain ⟨ha, hb⟩ := ih (stepRows dmap na cm note ready rw rows idx rd k)
          (correctStep dmap na cm ready rw (rows.getD idx dfltRow) idx rd k).2.2.2.1
          (correctStep dmap na cm ready rw (rows.getD idx dfltRow) idx rd k).2.2.2.2
          (by omega)
        refine ⟨ha, ?_⟩
        have hc : ¬(RowDiff.changed
            (stepDiff dmap na cm ready rw rows idx rd k) = true) := by
          intro hx
          have hx' : stepChanged dmap na cm ready rw rows idx rd k = true := hx
          rw [hx'] at hch'
          exact Bool.noConfusion hch'
        rw [List.filter_cons_of_neg hc]
        omega

theorem correctLoop_diff_sane (dmap : List (Nat × DetectInfo))
    (na cm note : Str) (ready : Bool) (rw : Nat → Option Str) :
    ∀ (l : List Nat) (rows : List QaRow) (rd k : Nat),
      ∀ d ∈ (correctLoop dmap na cm note ready rw l rows rd k).diffs,
        (d.changed = false → d.new_answer = d.old_answer) ∧
        (d.reason = strLimit → d.changed = false) := by
  intro l
  induction l with
  | nil => intro rows rd k d hd; exact absurd hd (by simp [correctLoop])
  | cons idx rest ih =>
    intro rows rd k d hd
    by_cases hrd : MAX_REWRITES ≤ rd
    · simp only [correctLoop, if_pos hrd] at hd
      rcases List.mem_cons.mp hd with rfl | hd'
      · exact ⟨fun _ => rfl, fun _ => rfl⟩
      · exact ih rows rd k d hd'
    · simp only [correctLoop, if_neg hrd] at hd
      rcases List.mem_cons.mp hd with rfl | hd'
      · exact stepDiff_sane dmap na cm ready rw rows idx rd k
      · exact ih (stepRows dmap na cm note ready rw rows idx rd k) _ _ d hd'

theorem correctLoop_frame (dmap : List (Nat × DetectInfo))
    (na cm note : Str) (ready : Bool) (rw : Nat → Option Str) :
    ∀ (l : List Nat) (rows : List QaRow) (rd k : Nat) (i : Nat),
      (correctLoop dmap na cm note ready rw l rows rd k).rows.getD i dfltRow ≠
        rows.getD i dfltRow →
      ∃ j, j < l.length ∧ l.getD j 0 = i ∧
        ((correctLoop dmap na cm note ready rw l rows rd k).diffs.getD j dfltDiff).changed
          = true := by
  intro l
  induction l with
  | nil => intro rows rd k i h; exact absurd rfl h
  | cons idx rest ih =>
    intro rows rd k i h
    by_cases hrd : MAX_REWRITES ≤ rd
    · simp only [correctLoop, if_pos hrd] at h ⊢
      obtain ⟨j, hj, hl, hc⟩ := ih rows rd k i h
      exact ⟨j + 1, by simpa using hj, by simpa using hl, by simpa using hc⟩
    · simp only [correctLoop, if_neg hrd] at h ⊢
      by_cases h2 : (correctLoop dmap na cm note ready rw rest
          (stepRows dmap na cm note ready rw rows idx rd k)
          (correctStep dmap na cm ready rw (rows.getD idx dfltRow) idx rd k).2.2.2.1
          (correctStep dmap na cm ready rw (rows.getD idx dfltRow) idx rd k).2.2.2.2).rows.getD
            i dfltRow =
          (stepRows dmap na cm note ready rw rows idx rd k).getD i dfltRow
      · rw [h2] at h
        have hii : i = idx := by
          by_contra hne
          exact h (stepRows_getD_ne dmap na cm note ready rw rows idx rd k i hne)
        subst hii
        have hch : stepChanged dmap na cm ready rw rows i rd k = true := by
          by_contra hne
          have := stepRows_unchanged dmap na cm note ready rw rows i rd k
            (Bool.eq_false_iff.mpr hne)
          rw [this] at h
          exact h rfl
        exact ⟨0, by simp, rfl, hch⟩
      · obtain ⟨j, hj, hl, hc⟩ := ih
          (stepRows dmap na cm note ready rw rows idx rd k)
          (correctStep dmap na cm ready rw (rows.getD idx dfltRow) idx rd k).2.2.2.1
          (correctStep dmap na cm ready rw (rows.getD idx dfltRow) idx rd k).2.2.2.2 i h2
        exact ⟨j + 1, by simpa using hj, by simpa using hl, by simpa using hc⟩

theorem correctLoop_keys (dmap : List (Nat × DetectInfo))
    (na cm note : Str) (ready : Bool) (rw : Nat → Option Str) :
    ∀ (l : List Nat) (rows : List QaRow) (rd k : Nat) (i : Nat),
      ((correctLoop dmap na cm note ready rw l rows rd k).rows.getD i dfltRow).call_id =
          (rows.getD i dfltRow).call_id ∧
        ((correctLoop dmap na cm note ready rw l rows rd k).rows.getD i dfltRow).pair_index =
          (rows.getD i dfltRow).pair_index := by
  intro l
  induction l with
  | nil => intro rows rd k i; exact ⟨rfl, rfl⟩
  | cons idx rest ih =>
    intro rows rd k i
    by_cases hrd : MAX_REWRITES ≤ rd
    · simp only [correctLoop, if_pos hrd]
      exact ih rows rd k i
    · simp only [correctLoop, if_neg hrd]
      obtain ⟨h1, h2⟩ := ih (stepRows dmap na cm note ready rw rows idx rd k)
        (correctStep dmap na cm ready rw (rows.getD idx dfltRow) idx rd k).2.2.2.1
        (correctStep dmap na cm ready rw (rows.getD idx dfltRow) idx rd k).2.2.2.2 i
      obtain ⟨h3, h4⟩ := stepRows_keys dmap na cm note ready rw rows idx rd k i
      exact ⟨h1.trans h3, h2.trans h4⟩

theorem correctLoop_prevs (dmap : List (Nat × DetectInfo))
    (na cm note : Str) (ready : Bool) (rw : Nat → Option Str) :
    ∀ (l : List Nat) (rows : List QaRow) (rd k : Nat), l.Nodup →
      ∃ m, m ≤ l.length ∧
        (correctLoop dmap na cm note ready rw l rows rd k).prevs =
          (l.take m).map (fun i =>
            (⟨(rows.getD i dfltRow).call_id, (rows.getD i dfltRow).pair_index,
              (rows.getD i dfltRow).answer⟩ : RowSnapshot)) ∧
        (∀ j, m ≤ j → j < l.length →
          ((correctLoop dmap na cm note ready rw l rows rd k).diffs.getD j
              dfltDiff).reason = strLimit ∧
          ((correctLoop dmap na cm note ready rw l rows rd k).diffs.getD j
              dfltDiff).changed = false) := by
  intro l
  induction l with
  | nil =>
    intro rows rd k _
    exact ⟨0, by simp, rfl, fun j h1 h2 => absurd h2 (by simp)⟩
  | cons idx rest ih =>
    intro rows rd k hnd
    by_cases hrd : MAX_REWRITES ≤ rd
    · obtain ⟨h1, h2, h3⟩ := correctLoop_skip dmap na cm note ready rw (idx :: rest)
        rows rd k hrd
      exact ⟨0, Nat.zero_le _, by rw [h2]; rfl, fun j hj1 hj2 => h3 j hj2⟩
    · have hndr : rest.Nodup := (List.nodup_cons.mp hnd).2
      have hnotmem : idx ∉ rest := (List.nodup_cons.mp hnd).1
      obtain ⟨m', hm', hprev, hsuf⟩ := ih
        (stepRows dmap na cm note ready rw rows idx rd k)
        (correctStep dmap na cm ready rw (rows.getD idx dfltRow) idx rd k).2.2.2.1
        (correctStep dmap na cm ready rw (rows.getD idx dfltRow) idx rd k).2.2.2.2 hndr
      have htail : (correctLoop dmap na cm note ready rw rest
          (stepRows dmap na cm note ready rw rows idx rd k)
          (correctStep dmap na cm ready rw (rows.getD idx dfltRow) idx rd k).2.2.2.1
          (correctStep dmap na cm ready rw (rows.getD idx dfltRow) idx rd k).2.2.2.2).prevs =
          (rest.take m').map (fun i =>
            (⟨(rows.getD i dfltRow).call_id, (rows.getD i dfltRow).pair_index,
              (rows.getD i dfltRow).answer⟩ : RowSnapshot)) := by
        rw [hprev]
        apply List.map_congr_left
        intro a ha
        have hane : a ≠ idx := fun he => hnotmem (he ▸ List.take_subset _ _ ha)
        rw [stepRows_getD_ne dmap na cm note ready rw rows idx rd k a hane]
      refine ⟨m' + 1, by simp only [List.length_cons]; omega, ?_, ?_⟩
      · simp only [correctLoop, if_neg hrd]
        rw [List.take_succ_cons, List.map_cons, htail]
      · intro j hj1 hj2
        cases j with
        | zero => omega
        | succ j' =>
          simp only [correctLoop, if_neg hrd, List.getD_cons_succ]
          exact hsuf j' (by omega) (by simpa using hj2)

theorem correctLoop_limit_suffix (dmap : List (Nat × DetectInfo))
    (na cm note : Str) (ready : Bool) (rw : Nat → Option Str) :
    ∀ (l : List Nat) (rows : List QaRow) (rd k : Nat),
      (correctLoop dmap na cm note ready rw l rows rd k).prevs.length ≤ l.length ∧
      (∀ j, (correctLoop dmap na cm note ready rw l rows rd k).prevs.length ≤ j →
        j < l.length →
        ((correctLoop dmap na cm note ready rw l rows rd k).diffs.getD j
            dfltDiff).reason = strLimit ∧
        ((correctLoop dmap na cm note ready rw l rows rd k).diffs.getD j
            dfltDiff).changed = false) := by
  intro l
  induction l with
  | nil =>
    intro rows rd k
    exact ⟨by simp [correctLoop], fun j h1 h2 => absurd h2 (by simp)⟩
  | cons idx rest ih =>
    intro rows rd k
    by_cases hrd : MAX_REWRITES ≤ rd
    · obtain ⟨hrows, hprevs, hdiffs⟩ := correctLoop_skip dmap na cm note ready rw
        (idx :: rest) rows rd k hrd
      constructor
      · rw [hprevs]
        simp
      · intro j h1 h2
        exact hdiffs j h2
    · simp only [correctLoop, if_neg hrd]
      obtain ⟨ihb, ihs⟩ := ih (stepRows dmap na cm note ready rw rows idx rd k)
        (correctStep dmap na cm ready rw (rows.getD idx dfltRow) idx rd k).2.2.2.1
        (correctStep dmap na cm ready rw (rows.getD idx dfltRow) idx rd k).2.2.2.2
      constructor
      · simp only [List.length_cons]
        omega
      · intro j h1 h2
        simp only [List.length_cons] at h1 h2
        cases j with
        | zero => omega
        | succ j' =>
          simp only [List.length_cons, List.getD_cons_succ] at h1 h2 ⊢
          exact ihs j' (by omega) (by omega)

/-! ## Bridges from `update_records` to its loop -/

theorem update_records_parts (st : St) (kb_index : Nat) (na rev com : Str)
    (selected : List Nat) (ts : Str) (ready : Bool)
    (det : Nat → Option (List DetectItem)) (rw : Nat → Option Str) :
    (update_records st kb_index na rev com selected ts ready det rw).2.row_diffs =
      (correctionLoopOf st na com ts rev selected ready det rw).diffs ∧
    (update_records st kb_index na rev com selected ts ready det rw).1.rows =
      (correctionLoopOf st na com ts rev selected ready det rw).rows ∧
    (update_records st kb_index na rev com selected ts ready det rw).2.previous_rows =
      (correctionLoopOf st na com ts rev selected ready det rw).prevs ∧
    (update_records st kb_index na rev com selected ts ready det rw).2.previous_kb_answer =
      some (st.kb.getD kb_index dfltEntry).best_answer ∧
    (update_records st kb_index na rev com selected ts ready det rw).2.rtype =
      strCorrected ∧
    (update_records st kb_index na rev com selected ts ready det rw).2.canonical_question =
      (st.kb.getD kb_index dfltEntry).canonical_question ∧
    (update_records st kb_index na rev com selected ts ready det rw).1.log =
      append_correction_log st.log
        (update_records st kb_index na rev com selected ts ready det rw).2 ∧
    (update_records st kb_index na rev com selected ts ready det rw).1.kb =
      st.kb.set kb_index
        { st.kb.getD kb_index dfltEntry with
            best_answer := stripS na
            last_reviewed_at := ts
            last_reviewer := rev
            review_comment := stripS com
            pending_review := false } ∧
    (update_records st kb_index na rev com selected ts ready det rw).1.clusters =
      updClusterAnswer st.clusters
        (st.kb.getD kb_index dfltEntry).canonical_question (stripS na) :=
  ⟨rfl, rfl, rfl, rfl, rfl, rfl, rfl, rfl, rfl⟩

theorem correctionLoopOf_eq (st : St) (na com ts rev : Str) (selected : List Nat)
    (ready : Bool) (det : Nat → Option (List DetectItem)) (rw : Nat → Option Str) :
    correctionLoopOf st na com ts rev selected ready det rw =
      correctLoop
        (detect_inconsistencies (correctionBatch st.rows selected) na com ready det)
        na com (correctionNote ts rev com) ready rw selected st.rows 0 0 := rfl

/-! ## Claim C3: rewrite budget bound -/

/-- Claim C3: per `correct` operation at most `MAX_REWRITES` (20) entries
of the diff trace report a change — and mutated rows only exist at
positions whose diff reports a change, so at most 20 rows are mutated;
only successful rewrites consume the budget; the trace has one entry per
candidate; every diff carrying reason `"limit_reached"` reports
`changed=false` with `new_answer = old_answer`, its row left unmodified;
and conversely every candidate processed after the budget was exhausted —
the iterations are snapshotted one-for-one until exhaustion, so these are
the candidates beyond the first `previous_rows.length` — carries reason
`"limit_reached"` with `changed=false` in the trace. -/
theorem C3_rewrite_budget (st : St) (kb_index : Nat) (na rev com : Str)
    (selected : List Nat) (ts : Str) (ready : Bool)
    (det : Nat → Option (List DetectItem)) (rw : Nat → Option Str) :
    ((update_records st kb_index na rev com selected ts ready det rw).2.row_diffs.filter
        RowDiff.changed).length ≤ MAX_REWRITES ∧
    (update_records st kb_index na rev com selected ts ready det rw).2.row_diffs.length =
      selected.length ∧
    (∀ d ∈ (update_records st kb_index na rev com selected ts ready det rw).2.row_diffs,
      d.reason = strLimit → d.changed = false ∧ d.new_answer = d.old_answer) ∧
    (∀ i,
      (update_records st kb_index na rev com selected ts ready det rw).1.rows.getD i
          dfltRow ≠ st.rows.getD i dfltRow →
      ∃ j, j < selected.length ∧ selected.getD j 0 = i ∧
        ((update_records st kb_index na rev com selected ts ready det
            rw).2.row_diffs.getD j dfltDiff).changed = true) ∧
    (update_records st kb_index na rev com selected ts ready det
        rw).2.previous_rows.length ≤ selected.length ∧
    (∀ j,
      (update_records st kb_index na rev com selected ts ready det
          rw).2.previous_rows.length ≤ j → j < selected.length →
      ((update_records st kb_index na rev com selected ts ready det
          rw).2.row_diffs.getD j dfltDiff).reason = strLimit ∧
      ((update_records st kb_index na rev com selected ts ready det
          rw).2.row_diffs.getD j dfltDiff).changed = false) := by
  obtain ⟨hd, hr, hp, -, -, -, -, -, -⟩ :=
    update_records_parts st kb_index na rev com selected ts ready det rw
  rw [hd, hr, hp, correctionLoopOf_eq]
  refine ⟨?_, ?_, ?_, ?_, ?_, ?_⟩
  · obtain ⟨hA, hB⟩ := correctLoop_budget
      (detect_inconsistencies (correctionBatch st.rows selected) na com ready det)
      na com (correctionNote ts rev com) ready rw selected st.rows 0 0 (Nat.zero_le _)
    omega
  · exact correctLoop_diffs_length
      (detect_inconsistencies (correctionBatch st.rows selected) na com ready det)
      na com (correctionNote ts rev com) ready rw selected st.rows 0 0
  · intro d hmem hres
    have hs := correctLoop_diff_sane
      (detect_inconsistencies (correctionBatch st.rows selected) na com ready det)
      na com (correctionNote ts rev com) ready rw selected st.rows 0 0 d hmem
    have hcf := hs.2 hres
    exact ⟨hcf, hs.1 hcf⟩
  · intro i hne
    exact correctLoop_frame
      (detect_inconsistencies (correctionBatch st.rows selected) na com ready det)
      na com (correctionNote ts rev com) ready rw selected st.rows 0 0 i hne
  · exact (correctLoop_limit_suffix
      (detect_inconsistencies (correctionBatch st.rows selected) na com ready det)
      na com (correctionNote ts rev com) ready rw selected st.rows 0 0).1
  · exact (correctLoop_limit_suffix
      (detect_inconsistencies (correctionBatch st.rows selected) na com ready det)
      na com (correctionNote ts rev com) ready rw selected st.rows 0 0).2

def chA : Str := "a".toList
def chB : Str := "b".toList
def chC : Str := "c".toList
def chQ : Str := "q".toList
def chNew : Str := "new".toList
def chOld : Str := "old".toList
def chRev : Str := "rev".toList
def chCom : Str := "com".toList
def chT1 : Str := "t1".toList

/-- A flat QA row for the budget run: answer `"a"`, keyed
`("c", i+1)`. -/
def rowA (i : Nat) : QaRow := ⟨chC, i + 1, [], chA, false, []⟩

/-- 21 candidate rows behind one KB entry and one cluster. -/
def st21 : St :=
  ⟨[⟨chQ, chOld, [], true, [], [], []⟩], [(chQ, ⟨chOld, [], []⟩)],
    (List.range 21).map rowA, []⟩

/-- A detector oracle flagging every row with snippet `"a"`. -/
def det21 : Nat → Option (List DetectItem) :=
  fun _ => some ((List.range 21).map fun i => ⟨some i, true, [], chA⟩)

/-- A rewriter oracle always replying with replacement `"b"`. -/
def rw21 : Nat → Option Str := fun _ => some chB

set_option maxRecDepth 40000 in
/-- Witness for C3 on the 21-candidate run: the changed entries stay
within the budget, the trace has one entry per candidate, and candidate
20 — processed after the 20 successful rewrites exhausted the budget —
carries reason `"limit_reached"` with `changed=false`. -/
theorem C3_rewrite_budget_witness :
    ((update_records st21 0 chNew chRev chCom (List.range 21) chT1 true det21
        rw21).2.row_diffs.filter RowDiff.changed).length ≤ MAX_REWRITES ∧
    (update_records st21 0 chNew chRev chCom (List.range 21) chT1 true det21
        rw21).2.row_diffs.length = (List.range 21).length ∧
    ((update_records st21 0 chNew chRev chCom (List.range 21) chT1 true det21
        rw21).2.row_diffs.getD 20 dfltDiff).reason = strLimit ∧
    ((update_records st21 0 chNew chRev chCom (List.range 21) chT1 true det21
        rw21).2.row_diffs.getD 20 dfltDiff).changed = false :=
  ⟨(C3_rewrite_budget st21 0 chNew chRev chCom (List.range 21) chT1 true det21
      rw21).1,
    (C3_rewrite_budget st21 0 chNew chRev chCom (List.range 21) chT1 true det21
      rw21).2.1,
    ((C3_rewrite_budget st21 0 chNew chRev chCom (List.range 21) chT1 true det21
      rw21).2.2.2.2.2 20 (by decide) (by decide)).1,
    ((C3_rewrite_budget st21 0 chNew chRev chCom (List.range 21) chT1 true det21
      rw21).2.2.2.2.2 20 (by decide) (by decide)).2⟩

/-! ## Claim C7: snapshot completeness -/

set_option maxRecDepth 40000 in
/-- Counterexample to C7 as stated: with 21 candidate rows all flagged and
successfully rewritten, the budget is exhausted after the first 20; the
21st candidate is skipped *before* the snapshot line runs, so
`previous_rows` has 20 entries, not one per candidate row (21). -/
theorem C7_counterexample :
    (update_records st21 0 chNew chRev chCom (List.range 21) chT1 true det21
        rw21).2.previous_rows.length = 20 ∧
    (List.range 21).length = 21 ∧
    ((update_records st21 0 chNew chRev chCom (List.range 21) chT1 true det21
        rw21).2.row_diffs.getD 20 dfltDiff).reason = strLimit := by
  refine ⟨?_, rfl, ?_⟩ <;> rfl

/-- Claim C7 (amended): `previous_rows` snapshots the pre-correction
answer of every candidate row processed before the rewrite budget was
exhausted — a prefix of the candidate list, including unflagged rows —
while the candidates of the remaining suffix are budget-skipped: their
diffs carry reason `"limit_reached"` and `changed=false`, and they are
not snapshotted. -/
theorem C7_snapshot_coverage (st : St) (kb_index : Nat) (na rev com : Str)
    (selected : List Nat) (ts : Str) (ready : Bool)
    (det : Nat → Option (List DetectItem)) (rw : Nat → Option Str)
    (hnd : selected.Nodup) :
    ∃ m, m ≤ selected.length ∧
      (update_records st kb_index na rev com selected ts ready det
          rw).2.previous_rows =
        (selected.take m).map (fun i =>
          (⟨(st.rows.getD i dfltRow).call_id, (st.rows.getD i dfltRow).pair_index,
            (st.rows.getD i dfltRow).answer⟩ : RowSnapshot)) ∧
      (∀ j, m ≤ j → j < selected.length →
        ((update_records st kb_index na rev com selected ts ready det
            rw).2.row_diffs.getD j dfltDiff).reason = strLimit ∧
        ((update_records st kb_index na rev com selected ts ready det
            rw).2.row_diffs.getD j dfltDiff).changed = false) := by
  obtain ⟨hd, -, hp, -, -, -, -, -, -⟩ :=
    update_records_parts st kb_index na rev com selected ts ready det rw
  rw [hd, hp, correctionLoopOf_eq]
  exact correctLoop_prevs
    (detect_inconsistencies (correctionBatch st.rows selected) na com ready det)
    na com (correctionNote ts rev com) ready rw selected st.rows 0 0 hnd

def st1r : St :=
  ⟨[⟨chQ, chOld, [], true, [], [], []⟩], [(chQ, ⟨chOld, [], []⟩)], [rowA 0], []⟩

/-- Witness for C7 (amended) on a one-candidate run with the collaborator
unavailable: the whole candidate list is snapshotted (`m = 1`). -/
theorem C7_snapshot_coverage_witness :
    ∃ m, m ≤ ([0] : List Nat).length ∧
      (update_records st1r 0 chNew chRev chCom [0] chT1 false det21
          rw21).2.previous_rows =
        (([0] : List Nat).take m).map (fun i =>
          (⟨(st1r.rows.getD i dfltRow).call_id, (st1r.rows.getD i dfltRow).pair_index,
            (st1r.rows.getD i dfltRow).answer⟩ : RowSnapshot)) ∧
      (∀ j, m ≤ j → j < ([0] : List Nat).length →
        ((update_records st1r 0 chNew chRev chCom [0] chT1 false det21
            rw21).2.row_diffs.getD j dfltDiff).reason = strLimit ∧
        ((update_records st1r 0 chNew chRev chCom [0] chT1 false det21
            rw21).2.row_diffs.getD j dfltDiff).changed = false) :=
  C7_snapshot_coverage st1r 0 chNew chRev chCom [0] chT1 false det21 rw21 (by decide)

/-! ## Row keys and the undo restore walk -/

/-- The `(call_id, pair_index)` key of a QA row (unique per the data
model). -/
def rowKey (r : QaRow) : Str × Nat := (r.call_id, r.pair_index)

/-- The `(call_id, pair_index)` key of a snapshot entry. -/
def snapKey (s : RowSnapshot) : Str × Nat := (s.call_id, s.pair_index)

theorem getD_mem {α : Type} : ∀ (l : List α) (i : Nat) (d : α),
    i < l.length → l.getD i d ∈ l := by
  intro l
  induction l with
  | nil => intro i d h; simp at h
  | cons a as ih =>
    intro i d h
    cases i with
    | zero => exact List.mem_cons_self _ _
    | succ i' => exact List.mem_cons_of_mem _ (ih i' d (by simpa using h))

theorem getD_mem_take {α : Type} : ∀ (l : List α) (m j : Nat) (d : α),
    j < m → j < l.length → l.getD j d ∈ l.take m := by
  intro l
  induction l with
  | nil => intro m j d h1 h2; simp at h2
  | cons a as ih =>
    intro m j d h1 h2
    cases m with
    | zero => omega
    | succ m' =>
      cases j with
      | zero => exact List.mem_cons_self _ _
      | succ j' =>
        exact List.mem_cons_of_mem _ (ih m' j' d (by omega) (by simpa using h2))

theorem keys_inj (rows : List QaRow) (hU : (rows.map rowKey).Nodup) :
    ∀ i j, i < rows.length → j < rows.length →
      rowKey (rows.getD i dfltRow) = rowKey (rows.getD j dfltRow) → i = j := by
  intro i j hi hj he
  have hleni : i < (rows.map rowKey).length := by simpa using hi
  have hlenj : j < (rows.map rowKey).length := by simpa using hj
  have h1 : (rows.map rowKey)[i] = rowKey (rows.getD i dfltRow) := by
    rw [List.getElem_map, List.getD_eq_getElem rows dfltRow hi]
  have h2 : (rows.map rowKey)[j] = rowKey (rows.getD j dfltRow) := by
    rw [List.getElem_map, List.getD_eq_getElem rows dfltRow hj]
  exact (List.Nodup.getElem_inj_iff hU).mp (h1.trans (he.trans h2.symm))

theorem restoreRow_map_key (c : Str) (p : Nat) (a note : Str) :
    ∀ rows : List QaRow, (restoreRow c p a note rows).map rowKey = rows.map rowKey := by
  intro rows
  induction rows with
  | nil => rfl
  | cons r rest ih =>
    by_cases h : r.call_id = c ∧ r.pair_index = p
    · simp only [restoreRow, if_pos h, List.map_cons]
      rfl
    · simp only [restoreRow, if_neg h, List.map_cons, ih]

theorem restoreRow_getD_ne_key (c : Str) (p : Nat) (a note : Str) :
    ∀ (rows : List QaRow) (i : Nat),
      rowKey (rows.getD i dfltRow) ≠ (c, p) →
      (restoreRow c p a note rows).getD i dfltRow = rows.getD i dfltRow := by
  intro rows
  induction rows with
  | nil => intro i _; rfl
  | cons r rest ih =>
    intro i h
    by_cases hr : r.call_id = c ∧ r.pair_index = p
    · cases i with
      | zero =>
        exact absurd (by simp [rowKey, hr.1, hr.2]) h
      | succ i' => simp only [restoreRow, if_pos hr, List.getD_cons_succ]
    · cases i with
      | zero => simp only [restoreRow, if_neg hr, List.getD_cons_zero]
      | succ i' =>
        simp only [restoreRow, if_neg hr, List.getD_cons_succ]
        exact ih i' (by simpa using h)

theorem restoreRow_set (c : Str) (p : Nat) (a note : Str) :
    ∀ (rows : List QaRow) (i : Nat), i < rows.length →
      (∀ j, j < i → rowKey (rows.getD j dfltRow) ≠ (c, p)) →
      rowKey (rows.getD i dfltRow) = (c, p) →
      restoreRow c p a note rows = rows.set i
        { rows.getD i dfltRow with
            answer := a, needs_review := true, review_notes := note } := by
  intro rows
  induction rows with
  | nil => intro i h; simp at h
  | cons r rest ih =>
    intro i hi hmin hkey
    cases i with
    | zero =>
      have hr : r.call_id = c ∧ r.pair_index = p := by
        simpa [rowKey] using hkey
      simp only [restoreRow, if_pos hr, List.set_cons_zero, List.getD_cons_zero]
    | succ i' =>
      have hr : ¬(r.call_id = c ∧ r.pair_index = p) := by
        intro hcp
        exact hmin 0 (by omega) (by simp [rowKey, hcp.1, hcp.2])
      simp only [restoreRow, if_neg hr, List.set_cons_succ, List.getD_cons_succ]
      have := ih i' (by simpa using hi)
        (fun j hj => by simpa using hmin (j + 1) (by omega)) hkey
      rw [this]

theorem undoRows_map_key (note : Str) : ∀ (snaps : List RowSnapshot)
    (rows : List QaRow),
    (undoRows note snaps rows).map rowKey = rows.map rowKey := by
  intro snaps
  induction snaps with
  | nil => intro rows; rfl
  | cons s0 rest ih =>
    intro rows
    show (undoRows note rest _).map rowKey = _
    rw [ih]
    show List.map rowKey
        (if (s0.call_id.isEmpty || decide (s0.pair_index = 0)) = true then rows
          else restoreRow s0.call_id s0.pair_index s0.previous_answer note rows) =
      List.map rowKey rows
    split
    · rfl
    · exact restoreRow_map_key s0.call_id s0.pair_index s0.previous_answer note rows

theorem undoRows_frame (note : Str) : ∀ (snaps : List RowSnapshot)
    (rows : List QaRow) (i : Nat),
    (∀ s ∈ snaps, snapKey s ≠ rowKey (rows.getD i dfltRow)) →
    (undoRows note snaps rows).getD i dfltRow = rows.getD i dfltRow := by
  intro snaps
  induction snaps with
  | nil => intro rows i _; rfl
  | cons s0 rest ih =>
    intro rows i h
    have hstep : (if s0.call_id.isEmpty || s0.pair_index = 0 then rows
        else restoreRow s0.call_id s0.pair_index s0.previous_answer note
          rows).getD i dfltRow = rows.getD i dfltRow := by
      split
      · rfl
      · refine restoreRow_getD_ne_key s0.call_id s0.pair_index s0.previous_answer
          note rows i ?_
        intro he
        exact h s0 (List.mem_cons_self _ _) he.symm
    have hrec := ih
      (if s0.call_id.isEmpty || s0.pair_index = 0 then rows
        else restoreRow s0.call_id s0.pair_index s0.previous_answer note rows) i
      (fun s hs => by
        rw [hstep]
        exact h s (List.mem_cons_of_mem _ hs))
    exact hrec.trans hstep

theorem undoRows_hit (note : Str) : ∀ (snaps : List RowSnapshot)
    (rows : List QaRow) (i : Nat) (s : RowSnapshot),
    (rows.map rowKey).Nodup → i < rows.length → s ∈ snaps →
    snapKey s = rowKey (rows.getD i dfltRow) →
    s.call_id ≠ [] → s.pair_index ≠ 0 →
    (snaps.map snapKey).Nodup →
    ((undoRows note snaps rows).getD i dfltRow).answer = s.previous_answer ∧
    ((undoRows note snaps rows).getD i dfltRow).needs_review = true := by
  intro snaps
  induction snaps with
  | nil => intro rows i s _ _ hs; exact absurd hs (by simp)
  | cons s0 rest ih =>
    intro rows i s hU hi hs hkey hc hp hN
    have hNrest : (rest.map snapKey).Nodup := by
      rw [List.map_cons] at hN
      exact hN.of_cons
    have hheadnot : snapKey s0 ∉ rest.map snapKey := by
      rw [List.map_cons] at hN
      exact (List.nodup_cons.mp hN).1
    have hunfold : undoRows note (s0 :: rest) rows =
        undoRows note rest
          (if (s0.call_id.isEmpty || decide (s0.pair_index = 0)) = true then rows
            else restoreRow s0.call_id s0.pair_index s0.previous_answer note
              rows) := rfl
    rcases List.mem_cons.mp hs with rfl | hsrest
    · have hempty : s.call_id.isEmpty = false := by
        cases hcall : s.call_id with
        | nil => exact absurd hcall hc
        | cons _ _ => rfl
      have hcond : ¬((s.call_id.isEmpty || decide (s.pair_index = 0)) = true) := by
        simp [hempty, hp]
      have hmin : ∀ j, j < i →
          rowKey (rows.getD j dfltRow) ≠ (s.call_id, s.pair_index) := by
        intro j hj he
        have hji : j = i := keys_inj rows hU j i (by omega) hi (he.trans hkey)
        omega
      have hset := restoreRow_set s.call_id s.pair_index s.previous_answer note
        rows i hi hmin hkey.symm
      have hrows1 : undoRows note (s :: rest) rows =
          undoRows note rest
            (rows.set i
              { rows.getD i dfltRow with
                  answer := s.previous_answer, needs_review := true,
                  review_notes := note }) := by
        rw [hunfold, if_neg hcond, hset]
      rw [hrows1]
      have hgetD1 : (rows.set i
          { rows.getD i dfltRow with
              answer := s.previous_answer, needs_review := true,
              review_notes := note }).getD i dfltRow =
          { rows.getD i dfltRow with
              answer := s.previous_answer, needs_review := true,
              review_notes := note } :=
        getD_set_self rows i _ dfltRow hi
      have hframe := undoRows_frame note rest
        (rows.set i
          { rows.getD i dfltRow with
              answer := s.previous_answer, needs_review := true,
              review_notes := note }) i
        (fun s' hs' he => by
          rw [hgetD1] at he
          have hss : snapKey s' = snapKey s := he.trans hkey.symm
          exact hheadnot (hss ▸ List.mem_map.mpr ⟨s', hs', rfl⟩))
      rw [hframe, hgetD1]
      exact ⟨rfl, rfl⟩
    · have hne : snapKey s0 ≠ rowKey (rows.getD i dfltRow) := by
        intro he
        exact hheadnot (List.mem_map.mpr ⟨s, hsrest, hkey.trans he.symm⟩)
      rw [hunfold]
      have hstep : (if (s0.call_id.isEmpty || decide (s0.pair_index = 0)) = true
          then rows
          else restoreRow s0.call_id s0.pair_index s0.previous_answer note
            rows).getD i dfltRow = rows.getD i dfltRow := by
        split
        · rfl
        · exact restoreRow_getD_ne_key s0.call_id s0.pair_index s0.previous_answer
            note rows i (fun he => hne he.symm)
      have hU1 : ((if (s0.call_id.isEmpty || decide (s0.pair_index = 0)) = true
          then rows
          else restoreRow s0.call_id s0.pair_index s0.previous_answer note
            rows).map rowKey).Nodup := by
        split
        · exact hU
        · rw [restoreRow_map_key]
          exact hU
      have hlen1 : i < (if (s0.call_id.isEmpty || decide (s0.pair_index = 0)) = true
          then rows
          else restoreRow s0.call_id s0.pair_index s0.previous_answer note
            rows).length := by
        split
        · exact hi
        · have hml := congrArg List.length
            (restoreRow_map_key s0.call_id s0.pair_index s0.previous_answer note rows)
          simp only [List.length_map] at hml
          omega
      have hkey1 : snapKey s = rowKey ((if (s0.call_id.isEmpty ||
          decide (s0.pair_index = 0)) = true then rows
          else restoreRow s0.call_id s0.pair_index s0.previous_answer note
            rows).getD i dfltRow) := by
        rw [hstep]
        exact hkey
      exact ih _ i s hU1 hlen1 hsrest hkey1 hc hp hNrest

/-! ## Lemmas for undo and the log -/

theorem exists_concat_of_getLast? {α : Type} : ∀ (l : List α) (a : α),
    l.getLast? = some a → ∃ l2, l = l2 ++ [a] := by
  intro l
  induction l with
  | nil => intro a h; exact absurd h (by simp)
  | cons x xs ih =>
    intro a h
    cases xs with
    | nil =>
      refine ⟨[], ?_⟩
      have hxa : x = a := by simpa using h
      rw [hxa]
      rfl
    | cons y ys =>
      rw [List.getLast?_cons_cons] at h
      obtain ⟨l2, hl2⟩ := ih a h
      exact ⟨x :: l2, by rw [List.cons_append, ← hl2]⟩

theorem find_last_correction_append (log : List LogRec) (r : LogRec) (q : Str)
    (hq : r.canonical_question = q) (ht : r.rtype = strCorrected) :
    find_last_correction (append_correction_log log r) q = some r := by
  have key : ∀ L : List LogRec, find_last_correction (L ++ [r]) q = some r := by
    intro L
    unfold find_last_correction load_corrections_for
    rw [List.filter_append]
    have h1 : List.filter (fun x => decide (x.canonical_question = q)) [r] = [r] := by
      simp [hq]
    rw [h1, List.reverse_append]
    simp only [List.reverse_cons, List.reverse_nil, List.nil_append,
      List.singleton_append]
    exact List.find?_cons_of_pos _ (by simp [ht])
  unfold append_correction_log
  split
  · next h =>
    obtain ⟨L, hL⟩ := exists_concat_of_getLast? log r h
    rw [hL]
    exact key L
  · exact key log

theorem undoKb_set (q prev ra rv : Str) : ∀ (kb : List KbEntry) (i : Nat),
    i < kb.length →
    (∀ j, j < i → (kb.getD j dfltEntry).canonical_question ≠ q) →
    (kb.getD i dfltEntry).canonical_question = q →
    undoKb q prev ra rv kb = kb.set i
      { kb.getD i dfltEntry with
          best_answer := prev, pending_review := true, last_reviewed_at := ra,
          last_reviewer := rv,
          review_comment := "Откат к версии от ".toList ++ ra } := by
  intro kb
  induction kb with
  | nil => intro i h; simp at h
  | cons e rest ih =>
    intro i hi hmin hkey
    cases i with
    | zero =>
      have he : e.canonical_question = q := hkey
      simp only [undoKb, if_pos he, List.set_cons_zero, List.getD_cons_zero]
    | succ i' =>
      have he : ¬(e.canonical_question = q) := hmin 0 (by omega)
      simp only [undoKb, if_neg he, List.set_cons_succ, List.getD_cons_succ]
      have := ih i' (by simpa using hi)
        (fun j hj => by simpa using hmin (j + 1) (by omega)) hkey
      rw [this]

theorem undoKb_find_best (q prev ra rv : Str) : ∀ (kb : List KbEntry) (e : KbEntry),
    (undoKb q prev ra rv kb).find? (fun x => decide (x.canonical_question = q)) =
      some e →
    e.best_answer = prev := by
  intro kb
  induction kb with
  | nil => intro e h; exact absurd h (by simp [undoKb])
  | cons e0 rest ih =>
    intro e h
    by_cases h0 : e0.canonical_question = q
    · rw [undoKb, if_pos h0, List.find?_cons_of_pos _ (by simpa using h0)] at h
      cases h
      rfl
    · rw [undoKb, if_neg h0, List.find?_cons_of_neg _ (by simpa using h0)] at h
      exact ih e h

theorem lookupC_updCluster : ∀ (cm : List (Str × Cluster)) (q a : Str),
    lookupC (updClusterAnswer cm q a) q =
      (lookupC cm q).map fun c => { c with best_answer := a } := by
  intro cm
  induction cm with
  | nil => intro q a; rfl
  | cons kc rest ih =>
    intro q a
    by_cases h : kc.1 = q
    · simp only [updClusterAnswer, lookupC, if_pos h]
      rfl
    · simp only [updClusterAnswer, lookupC, if_neg h, ih]

theorem undo_last_correction_ok (st : St) (q now : Str) (record : LogRec)
    (prev : Str) (h1 : find_last_correction st.log q = some record)
    (h2 : record.previous_kb_answer = some prev) :
    undo_last_correction st q now =
      .ok (⟨undoKb q prev record.reviewed_at record.reviewer st.kb,
        updClusterAnswer st.clusters q prev,
        undoRows (undoRowNote record.reviewed_at record.reviewer)
          record.previous_rows st.rows,
        append_correction_log st.log (undoRecOf q now record.reviewed_at)⟩,
        undoRecOf q now record.reviewed_at) := by
  simp only [undo_last_correction, h1, h2]

theorem find?_first {α : Type} (p : α → Bool) (d : α) : ∀ (l : List α) (i : Nat),
    i < l.length → (∀ j, j < i → ¬(p (l.getD j d) = true)) →
    p (l.getD i d) = true → l.find? p = some (l.getD i d) := by
  intro l
  induction l with
  | nil => intro i h; simp at h
  | cons a rest ih =>
    intro i hi hmin hp
    cases i with
    | zero => exact List.find?_cons_of_pos _ hp
    | succ i' =>
      have h0 : ¬(p a = true) := by simpa using hmin 0 (by omega)
      rw [List.find?_cons_of_neg _ h0, List.getD_cons_succ]
      rw [List.getD_cons_succ] at hp
      exact ih i' (by simpa using hi)
        (fun j hj => by simpa using hmin (j + 1) (by omega)) hp

theorem undo_last_correction_ok_inv (st : St) (q now : Str) (stR : St) (u : LogRec)
    (h : undo_last_correction st q now = .ok (stR, u)) :
    ∃ record prev, find_last_correction st.log q = some record ∧
      record.previous_kb_answer = some prev ∧
      stR.kb = undoKb q prev record.reviewed_at record.reviewer st.kb ∧
      stR.clusters = updClusterAnswer st.clusters q prev ∧
      stR.rows = undoRows (undoRowNote record.reviewed_at record.reviewer)
        record.previous_rows st.rows ∧
      stR.log = append_correction_log st.log (undoRecOf q now record.reviewed_at) ∧
      u = undoRecOf q now record.reviewed_at := by
  unfold undo_last_correction at h
  split at h
  · exact absurd h (by simp)
  · next record hfind =>
    split at h
    · exact absurd h (by simp)
    · next prev hprev =>
      injection h with h2
      have hst := congrArg Prod.fst h2
      have hu := congrArg Prod.snd h2
      refine ⟨record, prev, hfind, hprev, ?_, ?_, ?_, ?_, hu.symm⟩
      · exact (congrArg St.kb hst).symm
      · exact (congrArg St.clusters hst).symm
      · exact (congrArg St.rows hst).symm
      · exact (congrArg St.log hst).symm

/-! ## Claim C6: KB/cluster sync invariant -/

/-- Claim C6: after a successful `correct` and after a successful `undo`,
whenever a FaqCluster exists for the canonical question, its
`best_answer` equals the `best_answer` of the matching KB entry —
`correct` sets both to the stripped new answer, `undo` restores both to
`previous_kb_answer`.  (The KB entry matching a question is the first
with that `canonical_question`; the data model keys entries uniquely, so
entries before `kb_index` carry other questions.) -/
theorem C6_kb_cluster_sync (st : St) (kb_index : Nat) (na rev com : Str)
    (selected : List Nat) (ts : Str) (ready : Bool)
    (det : Nat → Option (List DetectItem)) (rw : Nat → Option Str)
    (hkb : kb_index < st.kb.length)
    (hq : ∀ j, j < kb_index →
      (st.kb.getD j dfltEntry).canonical_question ≠
        (st.kb.getD kb_index dfltEntry).canonical_question) :
    (∀ e c,
      (update_records st kb_index na rev com selected ts ready det rw).1.kb.find?
          (fun x => decide (x.canonical_question =
            (st.kb.getD kb_index dfltEntry).canonical_question)) = some e →
      lookupC (update_records st kb_index na rev com selected ts ready det
          rw).1.clusters
          (st.kb.getD kb_index dfltEntry).canonical_question = some c →
      e.best_answer = c.best_answer) ∧
    (∀ (st2 : St) (q2 now2 : Str) (stR : St) (u : LogRec),
      undo_last_correction st2 q2 now2 = .ok (stR, u) →
      ∀ e c, stR.kb.find? (fun x => decide (x.canonical_question = q2)) = some e →
        lookupC stR.clusters q2 = some c → e.best_answer = c.best_answer) := by
  obtain ⟨-, -, -, -, -, -, -, hKB, hCL⟩ :=
    update_records_parts st kb_index na rev com selected ts ready det rw
  constructor
  · intro e c hfind hc
    rw [hKB] at hfind
    rw [hCL, lookupC_updCluster] at hc
    have hfirst := find?_first
      (fun x => decide (x.canonical_question =
        (st.kb.getD kb_index dfltEntry).canonical_question)) dfltEntry
      (st.kb.set kb_index
        { st.kb.getD kb_index dfltEntry with
            best_answer := stripS na
            last_reviewed_at := ts
            last_reviewer := rev
            review_comment := stripS com
            pending_review := false })
      kb_index (by simpa using hkb)
      (fun j hj => by
        rw [getD_set_ne _ _ _ _ _ (by omega : j ≠ kb_index)]
        simpa using hq j hj)
      (by
        rw [getD_set_self _ _ _ _ hkb]
        simp)
    rw [hfirst] at hfind
    have he := Option.some.inj hfind
    rw [getD_set_self _ _ _ _ hkb] at he
    obtain ⟨c0, -, hfc⟩ := Option.map_eq_some'.mp hc
    rw [← he, ← hfc]
  · intro st2 q2 now2 stR u hok e c hfind hc
    obtain ⟨record, prev, -, -, hkb2, hcl2, -, -, -⟩ :=
      undo_last_correction_ok_inv st2 q2 now2 stR u hok
    rw [hkb2] at hfind
    have he := undoKb_find_best q2 prev record.reviewed_at record.reviewer st2.kb
      e hfind
    rw [hcl2, lookupC_updCluster] at hc
    obtain ⟨c0, -, hfc⟩ := Option.map_eq_some'.mp hc
    rw [he, ← hfc]

def c6e : KbEntry := ⟨chQ, stripS chNew, [], false, chT1, chRev, stripS chCom⟩

def c6c : Cluster := ⟨stripS chNew, [], []⟩

/-- Witness for C6 at a concrete `correct` run: the updated entry and the
synced cluster hold the same stripped answer. -/
theorem C6_kb_cluster_sync_witness : c6e.best_answer = c6c.best_answer :=
  (C6_kb_cluster_sync st1r 0 chNew chRev chCom [] chT1 false det21 rw21
    (by decide) (fun j hj => absurd hj (by omega))).1 c6e c6c (by decide) (by decide)

/-! ## Claim C1: undo round-trip -/

/-- Claim C1: after a `correct` operation on the entry at `kb_index`
(recording `previous_kb_answer = A` and the per-row snapshots), an undo
on the same canonical question succeeds, appends exactly one log record
of type `undo`, restores the KB entry's `best_answer` to `A`, and
restores every row the correction rewrote to its pre-correction answer
with `needs_review = true`; and whenever no `corrected` record exists for
a question, undo fails with `NoCorrectionToUndo` (and, being a pure
failure, returns no state, so no collection is mutated).  Hypotheses are
the data-model invariants: canonical questions unique up to `kb_index`,
row keys `(call_id, pair_index)` truthy and unique, and the candidate
indices (as produced by `find_candidate_rows`) distinct and in range. -/
theorem C1_undo_round_trip (st : St) (kb_index : Nat) (na rev com : Str)
    (selected : List Nat) (ts now : Str) (ready : Bool)
    (det : Nat → Option (List DetectItem)) (rw : Nat → Option Str)
    (hkb : kb_index < st.kb.length)
    (hqu : ∀ j, j < kb_index →
      (st.kb.getD j dfltEntry).canonical_question ≠
        (st.kb.getD kb_index dfltEntry).canonical_question)
    (hkeys : ∀ r ∈ st.rows, r.call_id ≠ [] ∧ r.pair_index ≠ 0)
    (hUniq : (st.rows.map rowKey).Nodup)
    (hsel : selected.Nodup)
    (hselLt : ∀ i ∈ selected, i < st.rows.length) :
    (∃ st2 u,
      undo_last_correction
        (update_records st kb_index na rev com selected ts ready det rw).1
        (st.kb.getD kb_index dfltEntry).canonical_question now = .ok (st2, u) ∧
      u.rtype = strUndo ∧
      st2.log =
        (update_records st kb_index na rev com selected ts ready det rw).1.log ++
          [u] ∧
      (st2.kb.getD kb_index dfltEntry).best_answer =
        (st.kb.getD kb_index dfltEntry).best_answer ∧
      (∀ i, i < st.rows.length →
        ((update_records st kb_index na rev com selected ts ready det
            rw).1.rows.getD i dfltRow).answer ≠ (st.rows.getD i dfltRow).answer →
        (st2.rows.getD i dfltRow).answer = (st.rows.getD i dfltRow).answer ∧
        (st2.rows.getD i dfltRow).needs_review = true)) ∧
    (∀ (stX : St) (qX nowX : Str), find_last_correction stX.log qX = none →
      undo_last_correction stX qX nowX = .error msgNoCorrection) := by
  obtain ⟨hD, hR, hP, hPK, hT, hQ, hL, hKB, hCL⟩ :=
    update_records_parts st kb_index na rev com selected ts ready det rw
  refine ⟨?_, ?_⟩
  · -- the round trip
    have hfind : find_last_correction
        (update_records st kb_index na rev com selected ts ready det rw).1.log
        (st.kb.getD kb_index dfltEntry).canonical_question =
        some (update_records st kb_index na rev com selected ts ready det rw).2 := by
      rw [hL]
      exact find_last_correction_append st.log _ _ hQ hT
    have hok := undo_last_correction_ok
      (update_records st kb_index na rev com selected ts ready det rw).1
      (st.kb.getD kb_index dfltEntry).canonical_question now
      (update_records st kb_index na rev com selected ts ready det rw).2
      (st.kb.getD kb_index dfltEntry).best_answer hfind hPK
    refine ⟨_, _, hok, rfl, ?_, ?_, ?_⟩
    · -- exactly one undo record appended
      show append_correction_log
          (update_records st kb_index na rev com selected ts ready det rw).1.log
          _ = _
      rw [append_correction_log, if_neg]
      intro hlast
      rw [hL, getLast?_append_correction_log] at hlast
      have h3 := congrArg LogRec.rtype (Option.some.inj hlast)
      rw [hT] at h3
      have h4 : (undoRecOf (st.kb.getD kb_index dfltEntry).canonical_question now
          (update_records st kb_index na rev com selected ts ready det
            rw).2.reviewed_at).rtype = strUndo := rfl
      rw [h4] at h3
      exact absurd h3 (by decide)
    · -- KB answer restored
      have hset := undoKb_set
        (st.kb.getD kb_index dfltEntry).canonical_question
        (st.kb.getD kb_index dfltEntry).best_answer
        (update_records st kb_index na rev com selected ts ready det rw).2.reviewed_at
        (update_records st kb_index na rev com selected ts ready det rw).2.reviewer
        (update_records st kb_index na rev com selected ts ready det rw).1.kb
        kb_index
        (by rw [hKB]; simpa using hkb)
        (by
          intro j hj
          rw [hKB, getD_set_ne _ _ _ _ _ (by omega : j ≠ kb_index)]
          exact hqu j hj)
        (by rw [hKB, getD_set_self _ _ _ _ hkb])
      show ((undoKb _ _ _ _ _).getD kb_index dfltEntry).best_answer = _
      rw [hset, getD_set_self]
      have hlen1 : kb_index <
          (update_records st kb_index na rev com selected ts ready det
            rw).1.kb.length := by
        rw [hKB]
        simpa using hkb
      exact hlen1
    · -- rewritten rows restored
      intro i hi hch
      have hlenrows : (update_records st kb_index na rev com selected ts ready det
          rw).1.rows.length = st.rows.length := by
        rw [hR, correctionLoopOf_eq]
        exact correctLoop_rows_length _ _ _ _ _ _ _ _ _ _
      have hkeysrow : ∀ n : Nat,
          (((update_records st kb_index na rev com selected ts ready det
            rw).1.rows.getD n dfltRow).call_id = (st.rows.getD n dfltRow).call_id ∧
          ((update_records st kb_index na rev com selected ts ready det
            rw).1.rows.getD n dfltRow).pair_index =
            (st.rows.getD n dfltRow).pair_index) := by
        intro n
        rw [hR, correctionLoopOf_eq]
        exact correctLoop_keys _ _ _ _ _ _ _ _ _ _ n
      have hne : (update_records st kb_index na rev com selected ts ready det
          rw).1.rows.getD i dfltRow ≠ st.rows.getD i dfltRow := by
        intro he
        exact hch (congrArg QaRow.answer he)
      have hframe : ∃ j, j < selected.length ∧ selected.getD j 0 = i ∧
          (((update_records st kb_index na rev com selected ts ready det
            rw).2.row_diffs.getD j dfltDiff)).changed = true := by
        rw [hD, correctionLoopOf_eq]
        rw [hR, correctionLoopOf_eq] at hne
        exact correctLoop_frame _ _ _ _ _ _ _ _ _ _ i hne
      obtain ⟨j, hjlen, hji, hjch⟩ := hframe
      obtain ⟨m, hm, hprevs, hsuffix⟩ :
          ∃ m, m ≤ selected.length ∧
          (update_records st kb_index na rev com selected ts ready det
            rw).2.previous_rows =
            (selected.take m).map (fun i2 =>
              (⟨(st.rows.getD i2 dfltRow).call_id,
                (st.rows.getD i2 dfltRow).pair_index,
                (st.rows.getD i2 dfltRow).answer⟩ : RowSnapshot)) ∧
          (∀ j2, m ≤ j2 → j2 < selected.length →
            ((update_records st kb_index na rev com selected ts ready det
              rw).2.row_diffs.getD j2 dfltDiff).reason = strLimit ∧
            ((update_records st kb_index na rev com selected ts ready det
              rw).2.row_diffs.getD j2 dfltDiff).changed = false) := by
        rw [hD, hP, correctionLoopOf_eq]
        exact correctLoop_prevs _ _ _ _ _ _ selected st.rows 0 0 hsel
      have hjm : j < m := by
        by_contra hge
        exact absurd hjch (by rw [(hsuffix j (by omega) hjlen).2]; decide)
      have himem : i ∈ selected.take m := by
        rw [← hji]
        exact getD_mem_take selected m j 0 hjm hjlen
      have hsnap : (⟨(st.rows.getD i dfltRow).call_id,
          (st.rows.getD i dfltRow).pair_index,
          (st.rows.getD i dfltRow).answer⟩ : RowSnapshot) ∈
          (update_records st kb_index na rev com selected ts ready det
            rw).2.previous_rows := by
        rw [hprevs]
        exact List.mem_map.mpr ⟨i, himem, rfl⟩
      have hmapkeys : (update_records st kb_index na rev com selected ts ready det
          rw).1.rows.map rowKey = st.rows.map rowKey := by
        refine List.ext_getElem (by simp [hlenrows]) ?_
        intro n h1 h2
        rw [List.getElem_map, List.getElem_map]
        have hk := hkeysrow n
        have hn : n < st.rows.length := by simpa using h2
        have hn1 : n < (update_records st kb_index na rev com selected ts ready det
            rw).1.rows.length := by simpa using h1
        rw [← List.getD_eq_getElem _ dfltRow hn1, ← List.getD_eq_getElem _ dfltRow hn]
        unfold rowKey
        rw [hk.1, hk.2]
      have hU1 : ((update_records st kb_index na rev com selected ts ready det
          rw).1.rows.map rowKey).Nodup := by
        rw [hmapkeys]
        exact hUniq
      have hkeysv := hkeys (st.rows.getD i dfltRow) (getD_mem st.rows i dfltRow hi)
      have hNsnap : ((update_records st kb_index na rev com selected ts ready det
          rw).2.previous_rows.map snapKey).Nodup := by
        rw [hprevs, List.map_map]
        refine List.Nodup.map_on ?_
          (List.Nodup.sublist (List.take_sublist m selected) hsel)
        intro a ha b hb he
        have haS : a ∈ selected := List.take_subset _ _ ha
        have hbS : b ∈ selected := List.take_subset _ _ hb
        exact keys_inj st.rows hUniq a b (hselLt a haS) (hselLt b hbS) he
      have hkeyeq : snapKey (⟨(st.rows.getD i dfltRow).call_id,
          (st.rows.getD i dfltRow).pair_index,
          (st.rows.getD i dfltRow).answer⟩ : RowSnapshot) =
          rowKey ((update_records st kb_index na rev com selected ts ready det
            rw).1.rows.getD i dfltRow) := by
        unfold snapKey rowKey
        rw [(hkeysrow i).1, (hkeysrow i).2]
      have hhit := undoRows_hit
        (undoRowNote
          (update_records st kb_index na rev com selected ts ready det
            rw).2.reviewed_at
          (update_records st kb_index na rev com selected ts ready det
            rw).2.reviewer)
        (update_records st kb_index na rev com selected ts ready det
          rw).2.previous_rows
        (update_records st kb_index na rev com selected ts ready det rw).1.rows
        i
        (⟨(st.rows.getD i dfltRow).call_id, (st.rows.getD i dfltRow).pair_index,
          (st.rows.getD i dfltRow).answer⟩ : RowSnapshot)
        hU1 (by omega) hsnap hkeyeq hkeysv.1 hkeysv.2 hNsnap
      exact ⟨hhit.1, hhit.2⟩
  · intro stX qX nowX hnone
    simp only [undo_last_correction, hnone]

def chT2 : Str := "t2".toList

/-- Witness for C1 at a concrete correct-then-undo run (one candidate
row, collaborator unavailable). -/
theorem C1_undo_round_trip_witness :
    (∃ st2 u,
      undo_last_correction
        (update_records st1r 0 chNew chRev chCom [0] chT1 false det21 rw21).1
        (st1r.kb.getD 0 dfltEntry).canonical_question chT2 = .ok (st2, u) ∧
      u.rtype = strUndo ∧
      st2.log =
        (update_records st1r 0 chNew chRev chCom [0] chT1 false det21
          rw21).1.log ++ [u] ∧
      (st2.kb.getD 0 dfltEntry).best_answer =
        (st1r.kb.getD 0 dfltEntry).best_answer ∧
      (∀ i, i < st1r.rows.length →
        ((update_records st1r 0 chNew chRev chCom [0] chT1 false det21
            rw21).1.rows.getD i dfltRow).answer ≠
          (st1r.rows.getD i dfltRow).answer →
        (st2.rows.getD i dfltRow).answer = (st1r.rows.getD i dfltRow).answer ∧
        (st2.rows.getD i dfltRow).needs_review = true)) ∧
    (∀ (stX : St) (qX nowX : Str), find_last_correction stX.log qX = none →
      undo_last_correction stX qX nowX = .error msgNoCorrection) :=
  C1_undo_round_trip st1r 0 chNew chRev chCom [0] chT1 chT2 false det21 rw21
    (by decide) (fun j hj => absurd hj (by omega)) (by decide) (by decide)
    (by decide) (by decide)
